import Mathlib

/-!
Shallow embedding of the contextual-memory compilation engine: the
memory graph store (reinforcement, decay, activation), the
context-to-execution-graph compiler, the graph executor and the
fossilization candidate selector, translated from the Rust sources
(`memory.rs`, `compiler.rs`, `execution.rs`, `fossilization.rs`).

Modelling conventions:
- `f64` values are embedded as rationals (`ℚ`); `u32`/`usize` as `ℕ`.
- `Uuid` values are opaque identifiers, embedded as `ℕ`; the random
  `Uuid::new_v4` generator is embedded as an explicit counter `fresh`
  threaded through the compiler.
- `HashMap` / `HashSet` are embedded as association lists /
  duplicate-free lists; iteration order is list order.
- `current_timestamp()` becomes an explicit parameter `now`; wall-clock
  durations (`time_taken`) are outside the embedding and set to `0`.
- `f64::exp` is embedded as an abstract exponential (`ExpModel`): any
  function with the positivity and monotonicity properties of the
  mathematical exponential that the algorithms rely on. `ratExp` is a
  concrete computable instance used to evaluate on concrete inputs.
-/

namespace CMCA

/-- Association-list lookup keyed by `ℕ`-encoded ids (embeds `HashMap::get`). -/
def mapLookup {α : Type} (m : List (ℕ × α)) (k : ℕ) : Option α :=
  (m.find? (fun p => p.1 = k)).map (fun p => p.2)

/-- Association-list lookup keyed by ordered id pairs (embeds edge-map `get`). -/
def mapLookup2 {α : Type} (m : List ((ℕ × ℕ) × α)) (k : ℕ × ℕ) : Option α :=
  (m.find? (fun p => p.1 = k)).map (fun p => p.2)

/-- Association-list insert with last-write-wins replacement (embeds `HashMap::insert`). -/
def mapInsert {α : Type} (m : List (ℕ × α)) (k : ℕ) (v : α) : List (ℕ × α) :=
  if (mapLookup m k).isSome then
    m.map (fun p => (p.1, if p.1 = k then v else p.2))
  else
    m ++ [(k, v)]

/-- Abstract exponential function standing for `f64::exp`, together with the
order/sign facts about the mathematical exponential that the memory-decay
code relies on. -/
structure ExpModel where
  exp : ℚ → ℚ
  exp_pos : ∀ x, 0 < exp x
  exp_le_one : ∀ x, x ≤ 0 → exp x ≤ 1
  exp_lt_one : ∀ x, x < 0 → exp x < 1
  exp_mono : ∀ x y, x ≤ y → exp x ≤ exp y

/-- A computable rational stand-in for `exp`: `1/(1-x)` on negatives,
`1+x` otherwise. Strictly positive, monotone, `≤ 1` exactly on `x ≤ 0`. -/
def ratExpFun (x : ℚ) : ℚ := if x < 0 then 1 / (1 - x) else 1 + x

/-- The concrete exponential model used to evaluate the embedding on
concrete inputs. -/
def ratExp : ExpModel where
  exp := ratExpFun
  exp_pos := by
    intro x
    unfold ratExpFun
    split
    · have h1 : (0 : ℚ) < 1 - x := by linarith
      positivity
    · linarith [not_lt.mp (by assumption : ¬ x < 0)]
  exp_le_one := by
    intro x hx
    unfold ratExpFun
    by_cases h : x < 0
    · rw [if_pos h]
      have h0 : (0 : ℚ) < 1 - x := by linarith
      rw [div_le_one h0]
      linarith
    · rw [if_neg h]
      have : x = 0 := le_antisymm hx (not_lt.mp h)
      simp [this]
  exp_lt_one := by
    intro x hx
    unfold ratExpFun
    rw [if_pos hx]
    have h1 : (1 : ℚ) < 1 - x := by linarith
    have h0 : (0 : ℚ) < 1 - x := by linarith
    rw [div_lt_one h0]
    exact h1
  exp_mono := by
    intro x y hxy
    unfold ratExpFun
    rcases lt_or_le x 0 with hx | hx
    · rw [if_pos hx]
      rcases lt_or_le y 0 with hy | hy
      · rw [if_pos hy]
        have h0x : (0 : ℚ) < 1 - x := by linarith
        have h0y : (0 : ℚ) < 1 - y := by linarith
        rw [div_le_div_iff₀ h0x h0y]
        linarith
      · rw [if_neg (not_lt.mpr hy)]
        have h0 : (0 : ℚ) < 1 - x := by linarith
        have : 1 / (1 - x) ≤ 1 := by
          rw [div_le_one h0]; linarith
        linarith
    · rw [if_neg (not_lt.mpr hx), if_neg (not_lt.mpr (le_trans hx hxy))]
      linarith

/-- Atom categories of a `SemanticAtom` fragment (`types.rs::AtomType`). -/
inductive AtomType where
  | Entity | Action | Condition | Outcome | Property
  | Person | Location | Time | Quantity | Concept
  | Object | Event | Attribute | State | Resource
deriving DecidableEq

/-- Fragment type tags (`types.rs::FragmentType`). -/
inductive FragmentType where
  | EntityRelation | CausalRule | GoalStrategy | Constraint | Preference
  | ContextSignature | PersonalFact | TemporalEvent | SpatialRelation
  | QuantitativeFact | HierarchicalRelation | SocialRelation
  | OwnershipRelation | StateTransition | Capability | Belief | SemanticAtom
deriving DecidableEq

/-- The closed union of typed fragment contents (`types.rs::FragmentContent`). -/
inductive FragmentContent where
  | EntityRelation (entity relation target : String)
  | CausalRule (condition outcome : String) (confidence : ℚ)
  | GoalStrategy (goal strategy : String) (success_rate : ℚ)
  | Constraint (constraint context : String) (severity : ℚ)
  | Preference (preference : String) (weight : ℚ) (context : String)
  | ContextSignature (pattern : String) (typical_activations : List ℕ)
  | PersonalFact (person fact_type value : String) (confidence : ℚ)
  | TemporalEvent (event time_expression : String)
      (duration frequency : Option String) (confidence : ℚ)
  | SpatialRelation (entity location relation_type : String)
      (distance : Option String) (confidence : ℚ)
  | QuantitativeFact (entity : String) (quantity : ℚ) (unit : Option String)
      (comparison reference : Option String) (confidence : ℚ)
  | HierarchicalRelation (parent child relation_type : String)
      (level : Option ℕ) (confidence : ℚ)
  | SocialRelation (person1 person2 relation_type : String) (strength : ℚ)
      (context : Option String) (confidence : ℚ)
  | OwnershipRelation (owner owned relation_type : String) (confidence : ℚ)
  | StateTransition (entity from_state to_state : String)
      (condition : Option String) (timestamp : Option ℚ) (confidence : ℚ)
  | Capability (entity capability : String) (level : Option ℚ)
      (context : Option String) (confidence : ℚ)
  | Belief (entity belief : String) (confidence_level : ℚ)
      (evidence context : Option String)
  | SemanticAtom (atom_type : AtomType) (content : List (String × String))
      (atom_id : Option ℕ)

/-- A memory fragment (`types.rs::MFragment`). -/
structure MFragment where
  id : ℕ
  fragment_type : FragmentType
  content : FragmentContent
  confidence : ℚ
  salience : ℚ
  emotional_tag : ℚ
  reinforcement_count : ℕ
  last_activated : ℚ
  activation_history : List ℚ
  created_at : ℚ
  decay_rate : ℚ

/-- Edge categories (`types.rs::EdgeType`). -/
inductive EdgeType where
  | Causal | Temporal | Semantic | Contextual
deriving DecidableEq

/-- A directed weighted edge between fragments (`types.rs::Edge`). -/
structure Edge where
  from_fragment : ℕ
  to_fragment : ℕ
  edge_type : EdgeType
  strength : ℚ
  last_reinforced : ℚ
  created_at : ℚ
  decay_rate : ℚ

/-- The three inverted lookup maps (`types.rs::ActivationIndex`). -/
structure ActivationIndex where
  by_goal : List (String × List ℕ)
  by_domain : List (String × List ℕ)
  by_keyword : List (String × List ℕ)

/-- A recorded co-activation pattern (`types.rs::CoActivationPattern`). -/
structure CoActivationPattern where
  fragment_ids : List ℕ
  activation_count : ℕ
  average_confidence : ℚ
  last_activated : ℚ
  formatting_pattern : Option String

/-- Module categories (`types.rs::ModuleType`). -/
inductive ModuleType where
  | FSM | DecisionTable | Bytecode | MachineCode
deriving DecidableEq

/-- Input signature of a compiled module (`types.rs::InputSignature`). -/
structure InputSignature where
  parameters : List String
  context_requirements : List String

/-- Output signature of a compiled module (`types.rs::OutputSignature`). -/
structure OutputSignature where
  return_type : String
  side_effects : List String

/-- Activation fingerprint of a compiled module (`types.rs::ContextPattern`). -/
structure ContextPattern where
  goal_patterns : List String
  domain_hints : List String
  confidence_threshold : ℚ

/-- A fossilized precompiled module (`types.rs::CompiledModule`). -/
structure CompiledModule where
  id : ℕ
  module_type : ModuleType
  code : List ℕ
  input_signature : InputSignature
  output_signature : OutputSignature
  activation_condition : ContextPattern
  confidence : ℚ
  usage_count : ℕ
  success_count : ℕ
  failure_count : ℕ
  last_used : ℚ
  created_at : ℚ
  source_pattern : ℕ
  version : ℕ

/-- The memory graph aggregate (`types.rs::MemoryGraph`). -/
structure MemoryGraph where
  fragments : List (ℕ × MFragment)
  edges : List ((ℕ × ℕ) × Edge)
  activation_index : ActivationIndex
  compiled_modules : List CompiledModule
  co_activation_patterns : List CoActivationPattern
  version : ℕ

/-- Goal categories (`types.rs::GoalType`). -/
inductive GoalType where
  | Debug | Create | Learn | Explain | Predict
deriving DecidableEq

/-- A goal specification (`types.rs::GoalSpec`). -/
structure GoalSpec where
  description : String
  goal_type : GoalType
  parameters : List (String × String)
  priority : ℚ

/-- An attention window (`types.rs::AttentionWindow`). -/
structure AttentionWindow where
  focus_entities : List String
  focus_domains : List String
  focus_relations : List String
  exclusion_patterns : List String

/-- An emotional state (`types.rs::EmotionalState`). -/
structure EmotionalState where
  frustration : ℚ
  curiosity : ℚ
  confidence : ℚ
  urgency : ℚ
  satisfaction : ℚ

/-- Environmental constraints (`types.rs::Constraints`). -/
structure Constraints where
  must_include : List String
  must_exclude : List String
  resource_limits : List (String × ℚ)

/-- A domain hint (`types.rs::DomainPattern`). -/
structure DomainPattern where
  domain : String
  subdomain : Option String
  tags : List String

/-- The ephemeral per-query context (`types.rs::ContextVector`). -/
structure ContextVector where
  goal : GoalSpec
  attention_window : AttentionWindow
  emotional_bias : EmotionalState
  environmental_constraints : Constraints
  recent_activations : List ℕ
  time_pressure : ℚ
  domain_hint : DomainPattern
  confidence_threshold : ℚ
  max_fragments : ℕ

/-- EEG node categories (`types.rs::NodeType`). -/
inductive NodeType where
  | FragmentNode | ConflictNode | GapFillNode | DecisionNode | ActionNode
deriving DecidableEq

/-- A decision branch (`types.rs::Branch`). -/
structure Branch where
  condition : String
  target_node : ℕ
  weight : ℚ

/-- The five EEG node contents (`types.rs::NodeContent`). -/
inductive NodeContent where
  | Fragment (fragment_id : ℕ) (interpretation : String)
  | Conflict (conflicting_fragments : List ℕ) (selected_fragment : Option ℕ)
  | GapFill (gap_description : String) (estimated_confidence : ℚ)
  | Decision (condition : String) (branches : List Branch)
  | Action (action_type : String) (parameters : List (String × String))

/-- An EEG node (`types.rs::EEGNode`). -/
structure EEGNode where
  id : ℕ
  node_type : NodeType
  content : NodeContent
  confidence : ℚ
  source_fragments : List ℕ
  execution_cost : ℚ

/-- An EEG control-flow edge (`types.rs::EEGEdge`). -/
structure EEGEdge where
  from_node : ℕ
  to_node : ℕ
  edge_type : EdgeType
  condition : Option String
  weight : ℚ

/-- EEG metadata (`types.rs::EEGMetadata`). -/
structure EEGMetadata where
  compilation_timestamp : ℚ
  fragment_count : ℕ
  estimated_execution_time : ℚ
  confidence_score : ℚ

/-- The compiled execution graph (`types.rs::EEG`). -/
structure EEG where
  nodes : List (ℕ × EEGNode)
  edges : List EEGEdge
  entry_point : ℕ
  exit_points : List ℕ
  metadata : EEGMetadata

/-- Execution outcome categories (`types.rs::OutcomeType`). -/
inductive OutcomeType where
  | Success | Failure | Partial | Uncertain
deriving DecidableEq

/-- An execution outcome (`types.rs::Outcome`). -/
structure Outcome where
  outcome_type : OutcomeType
  result : String
  explanation : Option String
  confidence : ℚ

/-- Reinforcement signal categories (`types.rs::SignalType`). -/
inductive SignalType where
  | Positive | Negative | Neutral
deriving DecidableEq

/-- A queued reinforcement signal (`types.rs::ReinforcementSignal`). -/
structure ReinforcementSignal where
  fragment_id : ℕ
  signal_type : SignalType
  strength : ℚ
  reason : String

/-- The result of executing an EEG (`types.rs::ExecutionResult`). -/
structure ExecutionResult where
  outcome : Outcome
  execution_trace : List ℕ
  confidence : ℚ
  time_taken : ℚ
  reinforcement_signals : List ReinforcementSignal

/-- A recorded execution trace (`types.rs::ExecutionTrace`). -/
structure ExecutionTrace where
  eeg_id : ℕ
  context : ContextVector
  node_sequence : List ℕ
  branch_decisions : List (ℕ × ℕ)
  execution_time : ℚ
  timestamp : ℚ

/-- A repeated-path pattern (`types.rs::PathPattern`). -/
structure PathPattern where
  path : List ℕ
  occurrence_count : ℕ
  contexts : List ContextVector
  average_confidence : ℚ
  success_rate : ℚ

/-- A stable-branch pattern (`types.rs::BranchPattern`). -/
structure BranchPattern where
  decision_node : ℕ
  dominant_branch : ℕ
  branch_share : ℚ
  contexts : List ContextVector
  average_confidence : ℚ

/-- An invariant-subgraph pattern (`types.rs::SubgraphPattern`). -/
structure SubgraphPattern where
  subgraph_nodes : List ℕ
  occurrence_count : ℕ
  contexts : List ContextVector
  average_confidence : ℚ
  context_variance : ℚ

/-- An outcome-cluster pattern (`types.rs::OutcomePattern`). -/
structure OutcomePattern where
  outcome_type : OutcomeType
  occurrence_count : ℕ
  average_confidence : ℚ
  success_rate : ℚ

/-- A candidate for fossilization (`types.rs::FossilizationCandidate`). -/
structure FossilizationCandidate where
  pattern_type : String
  pattern_id : ℕ
  repetition_count : ℕ
  average_confidence : ℚ
  context_variance : ℚ
  reward_correlation : ℚ
  estimated_speedup : ℚ
  priority : ℚ

/-- The pattern miner's report (`types.rs::PatternReport`). -/
structure PatternReport where
  repeated_paths : List PathPattern
  stable_branches : List BranchPattern
  invariant_subgraphs : List SubgraphPattern
  high_confidence_outcomes : List OutcomePattern
  fossilization_candidates : List FossilizationCandidate

/-- Thresholds for fossilization selection (`types.rs::FossilizationConfig`). -/
structure FossilizationConfig where
  min_repetition : ℕ
  min_confidence : ℚ
  max_context_variance : ℚ
  min_reward_correlation : ℚ
  min_speedup : ℚ
  max_candidates_per_run : ℕ
  preferred_module_type : ModuleType

/-- String-keyed association-list lookup (embeds the index `HashMap::get`). -/
def strLookup (m : List (String × List ℕ)) (k : String) : Option (List ℕ) :=
  (m.find? (fun p => p.1 = k)).map (fun p => p.2)

/-- Duplicate-free extension of an id list (embeds `HashSet::extend`). -/
def setExtend (s : List ℕ) (xs : List ℕ) : List ℕ :=
  xs.foldl (fun acc x => if x ∈ acc then acc else acc ++ [x]) s

/-- Whether the character list `pat` occurs at the head of `hay`. -/
def listStarts : List Char → List Char → Bool
  | _, [] => true
  | [], _ :: _ => false
  | a :: as, b :: bs => a == b && listStarts as bs

/-- Whether the character list `pat` occurs contiguously inside `hay`. -/
def listContainsSub : List Char → List Char → Bool
  | [], pat => pat.isEmpty
  | a :: as, pat => listStarts (a :: as) pat || listContainsSub as pat

/-- Substring test, embedding Rust's `str::contains`. -/
def strContains (s pat : String) : Bool :=
  listContainsSub s.toList pat.toList

/-- Split on whitespace, dropping empty pieces (Rust `str::split_whitespace`). -/
def splitWhitespace (s : String) : List String :=
  (String.split s Char.isWhitespace).filter (fun w => w ≠ r"")

/-- Goal-pattern extraction (`memory.rs::extract_goal_patterns`). -/
def extract_goal_patterns (goal : String) : List String :=
  let goal_lower := goal.toLower
  let patterns : List String := []
  let patterns :=
    if strContains goal_lower (r"debug") then patterns ++ [r"debug"] else patterns
  let patterns :=
    if strContains goal_lower (r"http") then
      patterns ++ [r"http", r"http_call", r"http_call"]
    else patterns
  let patterns :=
    if strContains goal_lower (r"api") then patterns ++ [r"api", r"api_call"]
    else patterns
  let patterns :=
    if strContains goal_lower (r"error") then patterns ++ [r"error"] else patterns
  let patterns :=
    if strContains goal_lower (r"404") then patterns ++ [r"404", r"404_error"]
    else patterns
  let patterns :=
    if strContains goal_lower (r"name") then patterns ++ [r"name", r"personal"]
    else patterns
  let patterns :=
    if strContains goal_lower (r"my") || strContains goal_lower (r"your") then
      patterns ++ [r"personal"]
    else patterns
  let words := splitWhitespace goal_lower
  let patterns := words.foldl (fun acc word =>
    if 3 ≤ word.length then
      let acc := acc ++ [word]
      if word == r"http" || word == r"api" then acc ++ [word ++ r"_call"] else acc
    else acc) patterns
  patterns ++ [goal_lower]

/-- Relevance scoring of an activation candidate
(`memory.rs::calculate_relevance_score`). -/
def calculate_relevance_score (E : ExpModel) (now : ℚ) (fragment : MFragment)
    (context : ContextVector) : ℚ :=
  let score : ℚ := 0
  let score := score + fragment.confidence * 0.3
  let score :=
    if 0 < fragment.last_activated then
      let recency_hours := (now - fragment.last_activated) / 3600
      let recency_factor := E.exp (-recency_hours / 24)
      score + recency_factor * 0.2
    else score
  let score := score + fragment.salience * 0.2
  let emotion_match := 1 - |fragment.emotional_tag - context.emotional_bias.frustration|
  let score := score + emotion_match * 0.1
  let reinforcement_factor := min ((fragment.reinforcement_count : ℚ) / 100) 1
  score + reinforcement_factor * 0.2

/-- The bounded edge-expansion loop of `memory.rs::activate_fragments`
(`for _ in 0..max_edge_traversal`); the countdown argument is the number
of remaining traversal steps, 10 at the top-level call. State is
`(activated, to_explore, explored)`; `pop` takes from the end of
`to_explore` like `Vec::pop`. -/
def edgeExpansion (g : MemoryGraph) (context : ContextVector) :
    ℕ → List ℕ × List ℕ × List ℕ → List ℕ × List ℕ × List ℕ
  | 0, st => st
  | n + 1, (activated, to_explore, explored) =>
    match to_explore.getLast? with
    | none => (activated, to_explore, explored)
    | some current =>
      let to_explore := to_explore.dropLast
      if current ∈ explored then
        edgeExpansion g context n (activated, to_explore, explored)
      else
        let explored := explored ++ [current]
        let st := g.edges.foldl (fun (acc : List ℕ × List ℕ) e =>
          let from_id := e.1.1
          let to_id := e.1.2
          if from_id = current ∧ to_id ∉ acc.1 then
            match mapLookup g.fragments to_id with
            | some fragment =>
              if context.confidence_threshold ≤ fragment.confidence then
                (acc.1 ++ [to_id], acc.2 ++ [to_id])
              else acc
            | none => acc
          else if to_id = current ∧ from_id ∉ acc.1 then
            match mapLookup g.fragments from_id with
            | some fragment =>
              if context.confidence_threshold ≤ fragment.confidence then
                (acc.1 ++ [from_id], acc.2 ++ [from_id])
              else acc
            | none => acc
          else acc) (activated, to_explore)
        edgeExpansion g context n (st.1, st.2, explored)

/-- Candidate gathering of `memory.rs::activate_fragments`: union of
goal-pattern, domain and normalized-tag index lookups. -/
def gatherCandidates (g : MemoryGraph) (context : ContextVector) : List ℕ :=
  let goal_patterns := extract_goal_patterns context.goal.description
  let candidates : List ℕ := goal_patterns.foldl (fun acc pattern =>
    let acc := match strLookup g.activation_index.by_goal pattern with
      | some fragments => setExtend acc fragments
      | none => acc
    match strLookup g.activation_index.by_goal pattern.toLower with
    | some fragments => setExtend acc fragments
    | none => acc) []
  let candidates := match strLookup g.activation_index.by_domain context.domain_hint.domain with
    | some fragments => setExtend candidates fragments
    | none => candidates
  let candidates := context.domain_hint.tags.foldl (fun acc tag =>
    let acc := match strLookup g.activation_index.by_keyword tag with
      | some fragments => setExtend acc fragments
      | none => acc
    let tag_lower := tag.toLower
    let acc := match strLookup g.activation_index.by_keyword tag_lower with
      | some fragments => setExtend acc fragments
      | none => acc
    let normalized_underscore := String.replace tag_lower (r" ") (r"_")
    let acc :=
      if normalized_underscore ≠ tag_lower then
        match strLookup g.activation_index.by_keyword normalized_underscore with
        | some fragments => setExtend acc fragments
        | none => acc
      else acc
    let normalized_hyphen := String.replace tag_lower (r" ") (r"-")
    let acc :=
      if normalized_hyphen ≠ tag_lower ∧ normalized_hyphen ≠ normalized_underscore then
        match strLookup g.activation_index.by_keyword normalized_hyphen with
        | some fragments => setExtend acc fragments
        | none => acc
      else acc
    let normalized_nospace := String.replace tag_lower (r" ") (r"")
    if normalized_nospace ≠ tag_lower ∧ 4 ≤ normalized_nospace.length then
      match strLookup g.activation_index.by_keyword normalized_nospace with
      | some fragments => setExtend acc fragments
      | none => acc
    else acc) candidates
  goal_patterns.foldl (fun acc pattern =>
    match strLookup g.activation_index.by_keyword pattern.toLower with
    | some fragments => setExtend acc fragments
    | none => acc) candidates

/-- Candidate scoring/filtering of `memory.rs::activate_fragments`: drop
candidates whose fragment is missing or below the confidence threshold,
score the survivors. -/
def scoreCandidates (E : ExpModel) (now : ℚ) (g : MemoryGraph)
    (context : ContextVector) (candidates : List ℕ) : List (ℕ × ℚ) :=
  candidates.filterMap (fun id =>
    match mapLookup g.fragments id with
    | some fragment =>
      if context.confidence_threshold ≤ fragment.confidence then
        some (id, calculate_relevance_score E now fragment context)
      else none
    | none => none)

/-- Context-driven activation (`memory.rs::activate_fragments`).
Returns the activated id set together with the mutated graph (the Rust
function updates `last_activated` / `activation_history` through
`&mut self`). -/
def activate_fragments (E : ExpModel) (now : ℚ) (g : MemoryGraph)
    (context : ContextVector) : List ℕ × MemoryGraph :=
  let candidates := gatherCandidates g context
  let scored := scoreCandidates E now g context candidates
  let scored := scored.mergeSort (fun a b => decide (b.2 ≤ a.2))
  let activated := (scored.take context.max_fragments).map (fun p => p.1)
  let st := edgeExpansion g context 10 (activated, activated, [])
  let activated := st.1
  let fragments := g.fragments.map (fun p =>
    (p.1, if p.1 ∈ activated then
      { p.2 with last_activated := now,
                 activation_history := p.2.activation_history ++ [now] }
    else p.2))
  (activated, { g with fragments := fragments })

/-- The per-fragment update of `memory.rs::reinforce_fragment`: Success
adds 0.1 confidence (clamped at 1) and bumps the count; Failure subtracts
0.05 (clamped at 0); Partial/Uncertain change nothing. -/
def reinforceUpd (outcome : Outcome) (fragment : MFragment) : MFragment :=
  match outcome.outcome_type with
  | OutcomeType.Success =>
    { fragment with confidence := min (fragment.confidence + 0.1) 1,
                    reinforcement_count := fragment.reinforcement_count + 1 }
  | OutcomeType.Failure =>
    { fragment with confidence := max (fragment.confidence - 0.05) 0 }
  | _ => fragment

/-- Apply an update at one key of an association list, embedding
`get_mut` followed by an in-place write. -/
def updAt {α : Type} (id : ℕ) (h : α → α) (k : ℕ) (v : α) : α :=
  if k = id then h v else v

/-- The per-edge update of `memory.rs::reinforce_fragment`: edges touching
the reinforced id gain 0.05 strength (clamped at 1) on Success only. -/
def reinforceEdgeUpd (outcome : Outcome) (id : ℕ) (now : ℚ) (k : ℕ × ℕ)
    (e : Edge) : Edge :=
  if (k.1 = id ∨ k.2 = id) ∧ outcome.outcome_type = OutcomeType.Success then
    { e with strength := min (e.strength + 0.05) 1, last_reinforced := now }
  else e

/-- Outcome-driven reinforcement (`memory.rs::reinforce_fragment`). -/
def reinforce_fragment (g : MemoryGraph) (id : ℕ) (outcome : Outcome)
    (now : ℚ) : MemoryGraph :=
  let fragments := g.fragments.map (fun p =>
    (p.1, updAt id (reinforceUpd outcome) p.1 p.2))
  let edges := g.edges.map (fun p =>
    (p.1, reinforceEdgeUpd outcome id now p.1 p.2))
  { g with fragments := fragments, edges := edges }

/-- Per-fragment decay step of `memory.rs::decay_memory`: reinforced
fragments get a protective confidence floor and a saturating decay-rate
reduction; unreinforced fragments decay unprotected. -/
def decayFragment (E : ExpModel) (delta_time : ℚ) (fragment : MFragment) : MFragment :=
  if 0 < fragment.reinforcement_count then
    let i_equivalent := max ((fragment.reinforcement_count : ℚ) - 1) 0
    let expected_min := 0.5 + i_equivalent * 0.05
    let min_confidence := min (expected_min + 0.1) 0.95
    let reduction := min ((fragment.reinforcement_count : ℚ) * 0.99) 0.9999
    let effective_decay_rate := fragment.decay_rate * (1 - reduction)
    let salience := fragment.salience * E.exp (-effective_decay_rate * delta_time)
    let decayed_confidence :=
      fragment.confidence * E.exp (-effective_decay_rate * 0.1 * delta_time)
    { fragment with salience := salience,
                    confidence := max decayed_confidence min_confidence }
  else
    { fragment with
        salience := fragment.salience * E.exp (-fragment.decay_rate * delta_time),
        confidence := fragment.confidence * E.exp (-fragment.decay_rate * 0.1 * delta_time) }

/-- Eviction test of `memory.rs::decay_memory`: remove iff unreinforced
(`should_persist` false), salience below 0.01 and confidence below 0.1. -/
def fragmentEvicted (fragment : MFragment) : Bool :=
  decide (¬ 1 ≤ fragment.reinforcement_count ∧
    fragment.salience < 0.01 ∧ fragment.confidence < 0.1)

/-- Time-based decay (`memory.rs::decay_memory`): decay every fragment,
evict the qualifying ones, decay every edge and drop edges whose strength
falls below 0.01. -/
def decay_memory (E : ExpModel) (g : MemoryGraph) (delta_time : ℚ) : MemoryGraph :=
  let fragments := (g.fragments.map (fun p => (p.1, decayFragment E delta_time p.2))).filter
    (fun p => ! fragmentEvicted p.2)
  let edges := (g.edges.map (fun p =>
    (p.1, { p.2 with strength := p.2.strength * E.exp (-p.2.decay_rate * delta_time) }))).filter
    (fun p => ! decide (p.2.strength < 0.01))
  { g with fragments := fragments, edges := edges }

/-- A single store mutation: one `reinforce_fragment` or one `decay_memory`
call. -/
inductive MemoryOp where
  | reinforce (id : ℕ) (outcome : Outcome) (now : ℚ)
  | decay (delta_time : ℚ)

/-- Apply one store mutation. -/
def applyOp (E : ExpModel) (g : MemoryGraph) : MemoryOp → MemoryGraph
  | MemoryOp.reinforce id outcome now => reinforce_fragment g id outcome now
  | MemoryOp.decay delta_time => decay_memory E g delta_time

/-- Apply a sequence of store mutations in order. -/
def applyOps (E : ExpModel) (g : MemoryGraph) (ops : List MemoryOp) : MemoryGraph :=
  ops.foldl (applyOp E) g

/-- Debug rendering of an atom type (Rust `{:?}` on `AtomType`). -/
def atomTypeName : AtomType → String
  | AtomType.Entity => r"Entity"
  | AtomType.Action => r"Action"
  | AtomType.Condition => r"Condition"
  | AtomType.Outcome => r"Outcome"
  | AtomType.Property => r"Property"
  | AtomType.Person => r"Person"
  | AtomType.Location => r"Location"
  | AtomType.Time => r"Time"
  | AtomType.Quantity => r"Quantity"
  | AtomType.Concept => r"Concept"
  | AtomType.Object => r"Object"
  | AtomType.Event => r"Event"
  | AtomType.Attribute => r"Attribute"
  | AtomType.State => r"State"
  | AtomType.Resource => r"Resource"

/-- Per-variant fragment interpretation (`execution.rs::interpret_fragment`):
every variant yields a `Success` outcome carrying the fragment's confidence. -/
def interpret_fragment (fragment : MFragment) : Outcome :=
  match fragment.content with
  | FragmentContent.EntityRelation entity relation target =>
    ⟨OutcomeType.Success, entity ++ r" " ++ relation ++ r" " ++ target,
      some (r"Entity relation identified"), fragment.confidence⟩
  | FragmentContent.CausalRule condition outcome _ =>
    ⟨OutcomeType.Success, condition ++ r" -> " ++ outcome,
      some (r"Causal rule applied"), fragment.confidence⟩
  | FragmentContent.GoalStrategy goal strategy _ =>
    ⟨OutcomeType.Success, r"Goal: " ++ goal ++ r", Strategy: " ++ strategy,
      some (r"Goal-strategy pair identified"), fragment.confidence⟩
  | FragmentContent.Constraint constraint _ _ =>
    ⟨OutcomeType.Success, constraint,
      some (r"Constraint identified"), fragment.confidence⟩
  | FragmentContent.Preference preference _ _ =>
    ⟨OutcomeType.Success, preference,
      some (r"Preference identified"), fragment.confidence⟩
  | FragmentContent.ContextSignature pattern _ =>
    ⟨OutcomeType.Success, pattern,
      some (r"Context signature identified"), fragment.confidence⟩
  | FragmentContent.PersonalFact person fact_type value _ =>
    ⟨OutcomeType.Success, person ++ r" " ++ fact_type ++ r" " ++ value,
      some (r"Personal fact identified"), fragment.confidence⟩
  | FragmentContent.TemporalEvent event time_expression _ _ _ =>
    ⟨OutcomeType.Success, event ++ r" at " ++ time_expression,
      some (r"Temporal event identified"), fragment.confidence⟩
  | FragmentContent.SpatialRelation entity location _ _ _ =>
    ⟨OutcomeType.Success, entity ++ r" at " ++ location,
      some (r"Spatial relation identified"), fragment.confidence⟩
  | FragmentContent.QuantitativeFact entity quantity unit _ _ _ =>
    ⟨OutcomeType.Success,
      entity ++ r": " ++ toString quantity ++ r" " ++ unit.getD (r""),
      some (r"Quantitative fact identified"), fragment.confidence⟩
  | FragmentContent.HierarchicalRelation parent child _ _ _ =>
    ⟨OutcomeType.Success, parent ++ r" contains " ++ child,
      some (r"Hierarchical relation identified"), fragment.confidence⟩
  | FragmentContent.SocialRelation person1 person2 relation_type _ _ _ =>
    ⟨OutcomeType.Success, person1 ++ r" " ++ relation_type ++ r" " ++ person2,
      some (r"Social relation identified"), fragment.confidence⟩
  | FragmentContent.OwnershipRelation owner owned _ _ =>
    ⟨OutcomeType.Success, owner ++ r" owns " ++ owned,
      some (r"Ownership relation identified"), fragment.confidence⟩
  | FragmentContent.StateTransition entity from_state to_state _ _ _ =>
    ⟨OutcomeType.Success, entity ++ r": " ++ from_state ++ r" -> " ++ to_state,
      some (r"State transition identified"), fragment.confidence⟩
  | FragmentContent.Capability entity capability _ _ _ =>
    ⟨OutcomeType.Success, entity ++ r" can " ++ capability,
      some (r"Capability identified"), fragment.confidence⟩
  | FragmentContent.Belief entity belief _ _ _ =>
    ⟨OutcomeType.Success, entity ++ r" believes " ++ belief,
      some (r"Belief identified"), fragment.confidence⟩
  | FragmentContent.SemanticAtom atom_type content _ =>
    let content_str := content.map (fun p => p.1 ++ r": " ++ p.2)
    let content_display := String.intercalate (r", ") content_str
    ⟨OutcomeType.Success,
      r"Atom type: " ++ atomTypeName atom_type ++ r", Content: " ++ content_display,
      some (r"Semantic atom identified"), fragment.confidence⟩

/-- Mutable loop state of the executor walk (`execution.rs`, locals of
`execute_eeg_with_context`). -/
structure WalkState where
  execution_trace : List ℕ
  reinforcement_signals : List ReinforcementSignal
  branch_decisions : List (ℕ × ℕ)
  fragment_outcomes : List Outcome

/-- The executor's walk loop (`execution.rs::execute_eeg_with_context`,
the `while let` loop). `fuel` counts remaining loop iterations; the Rust
loop is unbounded, and the returned flag is `true` exactly when the loop
exited through one of its own `break` conditions rather than by running
out of fuel. The memory graph is threaded through unchanged, mirroring
the `&mut` reference that the loop only ever reads. -/
def walk (eeg : EEG) : ℕ → ℕ → Finset ℕ → MemoryGraph → WalkState →
    WalkState × MemoryGraph × Bool
  | 0, _, _, memory, s => (s, memory, false)
  | fuel + 1, current_node_id, visited, memory, s =>
    match mapLookup eeg.nodes current_node_id with
    | none => (s, memory, true)
    | some node =>
      if current_node_id ∈ visited then (s, memory, true)
      else
        let visited := insert current_node_id visited
        let s := { s with execution_trace := s.execution_trace ++ [current_node_id] }
        let step := fun (s : WalkState) =>
          match eeg.edges.find? (fun e => e.from_node = current_node_id) with
          | some edge => walk eeg fuel edge.to_node visited memory s
          | none => (s, memory, true)
        match node.content with
        | NodeContent.Fragment fragment_id _ =>
          let s :=
            match mapLookup memory.fragments fragment_id with
            | some fragment =>
              let outcome := interpret_fragment fragment
              let s := { s with fragment_outcomes := s.fragment_outcomes ++ [outcome] }
              if outcome.outcome_type = OutcomeType.Success then
                { s with reinforcement_signals := s.reinforcement_signals ++
                    [⟨fragment_id, SignalType.Positive, 0.8, r"Successful execution"⟩] }
              else s
            | none => s
          step s
        | NodeContent.GapFill _ _ => step s
        | NodeContent.Decision _ branches =>
          match branches.head? with
          | some branch =>
            walk eeg fuel branch.target_node visited memory
              { s with branch_decisions :=
                  mapInsert s.branch_decisions current_node_id branch.target_node }
          | none => step s
        | NodeContent.Conflict _ selected_fragment =>
          match selected_fragment with
          | some frag_id => walk eeg fuel frag_id visited memory s
          | none => step s
        | NodeContent.Action _ _ => step s

/-- The fuel supplied to `walk`: one more than the node count, which C6
shows is enough for the visited-set guard to stop the loop on its own. -/
def walkFuel (eeg : EEG) : ℕ := eeg.nodes.length + 1

/-- Initial executor state: empty trace, signals, decisions, outcomes. -/
def initWalkState : WalkState := ⟨[], [], [], []⟩

/-- Full EEG execution (`execution.rs::execute_eeg_with_context`). Returns
the `ExecutionResult` and the memory graph handed back by the walk. The
`context` argument is ignored by the Rust function (`_context`);
`time_taken` is wall-clock time, outside the embedding, set to `0`. -/
def execute_eeg_with_context (eeg : EEG) (memory : MemoryGraph)
    (_context : Option ContextVector) : ExecutionResult × MemoryGraph :=
  let st := walk eeg (walkFuel eeg) eeg.entry_point ∅ memory initWalkState
  let s := st.1
  let memory := st.2.1
  let execution_trace := s.execution_trace
  let fragment_outcomes := s.fragment_outcomes
  let outcome :=
    if ! fragment_outcomes.isEmpty then
      let results := fragment_outcomes.map (fun o => o.result)
      let combined_result := String.intercalate (r"; ") results
      { outcome_type :=
          if 1 < execution_trace.length then OutcomeType.Success
          else OutcomeType.Partial,
        result := combined_result,
        explanation :=
          some (r"Executed " ++ toString fragment_outcomes.length ++ r" fragments"),
        confidence := eeg.metadata.confidence_score : Outcome }
    else if 1 < execution_trace.length then
      { outcome_type := OutcomeType.Success,
        result := r"Executed " ++ toString execution_trace.length ++ r" nodes",
        explanation := some (r"Execution completed successfully"),
        confidence := eeg.metadata.confidence_score }
    else
      { outcome_type := OutcomeType.Partial,
        result := r"Minimal execution",
        explanation := some (r"Limited execution path"),
        confidence := 0.5 }
  ({ outcome := outcome,
     execution_trace := execution_trace,
     confidence := eeg.metadata.confidence_score,
     time_taken := 0,
     reinforcement_signals := s.reinforcement_signals }, memory)

/-- Entry point (`execution.rs::execute_eeg`). -/
def execute_eeg (eeg : EEG) (memory : MemoryGraph) : ExecutionResult × MemoryGraph :=
  execute_eeg_with_context eeg memory none

/-- The fragment outcomes collected by the executor walk (the
`fragment_outcomes` local of `execute_eeg_with_context`). -/
def fragment_outcomes_of (eeg : EEG) (memory : MemoryGraph) : List Outcome :=
  (walk eeg (walkFuel eeg) eeg.entry_point ∅ memory initWalkState).1.fragment_outcomes

/-- Intermediate pipeline node (`compiler.rs::OrderedNode`). -/
structure OrderedNode where
  id : ℕ
  node_type : NodeType
  order : ℕ
  confidence : ℚ

/-- Pairwise conflict test (`compiler.rs::check_conflict`). -/
def check_conflict (frag1 frag2 : MFragment) : Bool :=
  match frag1.content, frag2.content with
  | FragmentContent.EntityRelation e1 r1 t1, FragmentContent.EntityRelation e2 r2 t2 =>
    e1 == e2 && r1 == r2 && t1 != t2
  | FragmentContent.CausalRule c1 o1 _, FragmentContent.CausalRule c2 o2 _ =>
    c1 == c2 && o1 != o2
  | _, _ => false

/-- Conflict resolution (`compiler.rs::resolve_conflicts`). The Rust
function also fills a local `conflicts` list via `check_conflict` on all
`i < j` pairs, but never reads it; the returned `resolved` list is the
activated ids whose fragments exist, in activation order. -/
def resolve_conflicts (activated : List ℕ) (memory : MemoryGraph) : List ℕ :=
  activated.filter (fun id => (mapLookup memory.fragments id).isSome)

/-- One iteration of the fragment-wrapping loop of `compiler.rs::fill_gaps`. -/
def fillStep (memory : MemoryGraph) (acc : List OrderedNode) (frag_id : ℕ) :
    List OrderedNode :=
  match mapLookup memory.fragments frag_id with
  | some fragment =>
    acc ++ [⟨frag_id, NodeType.FragmentNode, acc.length, fragment.confidence⟩]
  | none => acc

/-- Gap filling (`compiler.rs::fill_gaps`): wrap surviving fragments as
ordered nodes; with fewer than 3, append a synthetic gap-fill node with
confidence 0.5. Returns the node list and the advanced fresh-id counter. -/
def fill_gaps (resolved : List ℕ) (memory : MemoryGraph) (_context : ContextVector)
    (fresh : ℕ) : List OrderedNode × ℕ :=
  let nodes := resolved.foldl (fillStep memory) []
  if nodes.length < 3 then
    (nodes ++ [⟨fresh, NodeType.GapFillNode, nodes.length, 0.5⟩], fresh + 1)
  else (nodes, fresh)

/-- Ordering (`compiler.rs::order_fragments`): stable sort by fragment
confidence descending (falling back to the node's own confidence when the
fragment is missing), then reassign order indices. -/
def order_fragments (ordered_nodes : List OrderedNode) (memory : MemoryGraph) :
    List OrderedNode :=
  let result := ordered_nodes.mergeSort (fun a b =>
    let a_conf := (mapLookup memory.fragments a.id).elim a.confidence (fun f => f.confidence)
    let b_conf := (mapLookup memory.fragments b.id).elim b.confidence (fun f => f.confidence)
    decide (b_conf ≤ a_conf))
  result.enum.map (fun p => { p.2 with order := p.1 })

/-- One iteration of `compiler.rs::add_branching`: append the node, and
after a causal-rule-backed fragment node also append a synthetic decision
node with confidence 0.8 (consuming a fresh id). -/
def branchStep (memory : MemoryGraph) (acc : List OrderedNode × ℕ)
    (node : OrderedNode) : List OrderedNode × ℕ :=
  let branched := acc.1 ++ [node]
  if node.node_type = NodeType.FragmentNode then
    match mapLookup memory.fragments node.id with
    | some fragment =>
      match fragment.content with
      | FragmentContent.CausalRule _ _ _ =>
        (branched ++ [⟨acc.2, NodeType.DecisionNode, branched.length, 0.8⟩], acc.2 + 1)
      | _ => (branched, acc.2)
    | none => (branched, acc.2)
  else (branched, acc.2)

/-- Branch insertion (`compiler.rs::add_branching`): after every node
backed by a causal-rule fragment, insert a synthetic decision node with
confidence 0.8. Returns the node list and the advanced fresh-id counter. -/
def add_branching (ordered : List OrderedNode) (memory : MemoryGraph)
    (_context : ContextVector) (fresh : ℕ) : List OrderedNode × ℕ :=
  ordered.foldl (branchStep memory) ([], fresh)

/-- Pruning (`compiler.rs::prune_resources`): drop nodes whose confidence
is below `confidence_threshold + time_pressure * 0.2`. -/
def prune_resources (branched : List OrderedNode) (context : ContextVector) :
    List OrderedNode :=
  let threshold := context.confidence_threshold + context.time_pressure * 0.2
  branched.filter (fun node => decide (threshold ≤ node.confidence))

/-- Debug rendering of a fragment type (Rust `{:?}` on `FragmentType`). -/
def fragmentTypeName : FragmentType → String
  | FragmentType.EntityRelation => r"EntityRelation"
  | FragmentType.CausalRule => r"CausalRule"
  | FragmentType.GoalStrategy => r"GoalStrategy"
  | FragmentType.Constraint => r"Constraint"
  | FragmentType.Preference => r"Preference"
  | FragmentType.ContextSignature => r"ContextSignature"
  | FragmentType.PersonalFact => r"PersonalFact"
  | FragmentType.TemporalEvent => r"TemporalEvent"
  | FragmentType.SpatialRelation => r"SpatialRelation"
  | FragmentType.QuantitativeFact => r"QuantitativeFact"
  | FragmentType.HierarchicalRelation => r"HierarchicalRelation"
  | FragmentType.SocialRelation => r"SocialRelation"
  | FragmentType.OwnershipRelation => r"OwnershipRelation"
  | FragmentType.StateTransition => r"StateTransition"
  | FragmentType.Capability => r"Capability"
  | FragmentType.Belief => r"Belief"
  | FragmentType.SemanticAtom => r"SemanticAtom"

/-- The canonical minimal EEG (`compiler.rs::create_empty_eeg`): one
gap-fill node with confidence 0.3 that is both entry and sole exit. -/
def create_empty_eeg (_context : ContextVector) (now : ℚ) (fresh : ℕ) : EEG :=
  let gap_id := fresh
  { nodes := [(gap_id,
      ⟨gap_id, NodeType.GapFillNode,
        NodeContent.GapFill (r"No relevant memory") 0.3, 0.3, [], 1⟩)],
    edges := [],
    entry_point := gap_id,
    exit_points := [gap_id],
    metadata := ⟨now, 0, 1, 0.3⟩ }

/-- The per-node materialization `match` of `compiler.rs::construct_eeg`:
fragment nodes need an existing fragment, gap-fill and decision nodes are
synthesized, any other node type yields nothing (`continue`). -/
def constructNode? (memory : MemoryGraph) (node : OrderedNode) : Option EEGNode :=
  match node.node_type with
  | NodeType.FragmentNode =>
    match mapLookup memory.fragments node.id with
    | some fragment =>
      some ⟨node.id, NodeType.FragmentNode,
        NodeContent.Fragment node.id (fragmentTypeName fragment.fragment_type),
        fragment.confidence, [node.id], 1⟩
    | none => none
  | NodeType.GapFillNode =>
    some ⟨node.id, NodeType.GapFillNode,
      NodeContent.GapFill (r"Missing link") 0.5, 0.5, [], 1⟩
  | NodeType.DecisionNode =>
    some ⟨node.id, NodeType.DecisionNode,
      NodeContent.Decision (r"check_condition") [], 0.8, [], 1⟩
  | _ => none

/-- One iteration of the node-materialization loop of
`compiler.rs::construct_eeg`: insert the materialized node (skipping
fragment nodes whose fragment is missing) and push an exit point for
nodes carrying the final order index. -/
def constructStep (memory : MemoryGraph) (plen : ℕ)
    (acc : List (ℕ × EEGNode) × List ℕ) (node : OrderedNode) :
    List (ℕ × EEGNode) × List ℕ :=
  match constructNode? memory node with
  | some eeg_node =>
    (mapInsert acc.1 node.id eeg_node,
     if node.order = plen - 1 then acc.2 ++ [node.id] else acc.2)
  | none => acc

/-- EEG materialization (`compiler.rs::construct_eeg`): build nodes (a
fragment node is skipped when its fragment is missing), chain sequential
causal edges, entry point is the first pruned node, exit points are the
nodes with the final order index with the last node as fallback. -/
def construct_eeg (pruned : List OrderedNode) (context : ContextVector)
    (memory : MemoryGraph) (now : ℚ) (fresh : ℕ) : EEG :=
  match pruned.head? with
  | none => create_empty_eeg context now fresh
  | some first =>
    let entry_point := first.id
    let acc := pruned.foldl (constructStep memory pruned.length) ([], [])
    let nodes := acc.1
    let exit_points := acc.2
    let edges := (pruned.zip pruned.tail).map (fun p =>
      (⟨p.1.id, p.2.id, EdgeType.Causal, none, 1⟩ : EEGEdge))
    let exit_points :=
      if exit_points.isEmpty && ! pruned.isEmpty then
        exit_points ++ [((pruned.getLast?).getD first).id]
      else exit_points
    { nodes := nodes,
      edges := edges,
      entry_point := entry_point,
      exit_points := exit_points,
      metadata :=
        ⟨now, pruned.length, (pruned.length : ℚ),
          (pruned.map (fun n => n.confidence)).sum / (pruned.length : ℚ)⟩ }

/-- Debug rendering of a module type (Rust `{:?}` on `ModuleType`). -/
def moduleTypeName : ModuleType → String
  | ModuleType.FSM => r"FSM"
  | ModuleType.DecisionTable => r"DecisionTable"
  | ModuleType.Bytecode => r"Bytecode"
  | ModuleType.MachineCode => r"MachineCode"

/-- Tri-condition module match (`fossilization.rs::module_matches_context`):
goal-pattern substring-or-empty, domain membership-or-empty, and context
threshold at least the module threshold. -/
def module_matches_context (module : CompiledModule) (context : ContextVector) : Bool :=
  let goal_lower := context.goal.description.toLower
  let matches_goal :=
    module.activation_condition.goal_patterns.any (fun pattern =>
      strContains goal_lower pattern) ||
    module.activation_condition.goal_patterns.isEmpty
  let matches_domain :=
    module.activation_condition.domain_hints.contains context.domain_hint.domain ||
    module.activation_condition.domain_hints.isEmpty
  let matches_confidence :=
    decide (module.activation_condition.confidence_threshold ≤ context.confidence_threshold)
  matches_goal && matches_domain && matches_confidence

/-- First-match module scan (`fossilization.rs::find_applicable_module`). -/
def find_applicable_module (context : ContextVector)
    (modules : List CompiledModule) : Option CompiledModule :=
  modules.find? (fun m => module_matches_context m context)

/-- Fast-path EEG wrapping a compiled module
(`compiler.rs::create_eeg_from_module`). -/
def create_eeg_from_module (module : CompiledModule) (_context : ContextVector)
    (now : ℚ) (fresh : ℕ) : EEG :=
  let node_id := fresh
  { nodes := [(node_id,
      ⟨node_id, NodeType.FragmentNode,
        NodeContent.Action (r"CompiledModule_" ++ moduleTypeName module.module_type) [],
        module.confidence, [module.source_pattern], 0.1⟩)],
    edges := [],
    entry_point := node_id,
    exit_points := [node_id],
    metadata := ⟨now, 1, 0.1, module.confidence⟩ }

/-- The full compiler (`compiler.rs::compile_thought_with_modules`):
module fast path, then activate → resolve conflicts → fill gaps → order →
branch → prune → construct, degrading to the canonical gap-fill EEG when
activation is empty. -/
def compile_thought_with_modules (E : ExpModel) (now : ℚ) (fresh : ℕ)
    (context : ContextVector) (memory : MemoryGraph)
    (compiled_modules : Option (List CompiledModule)) : EEG :=
  let fast :=
    match compiled_modules with
    | some modules => find_applicable_module context modules
    | none => none
  match fast with
  | some module => create_eeg_from_module module context now fresh
  | none =>
    let act := activate_fragments E now memory context
    let activated := act.1
    let memory := act.2
    if activated.isEmpty then create_empty_eeg context now fresh
    else
      let resolved := resolve_conflicts activated memory
      let fg := fill_gaps resolved memory context fresh
      let ab := add_branching (order_fragments fg.1 memory) memory context fg.2
      let pruned := prune_resources ab.1 context
      construct_eeg pruned context memory now ab.2

/-- Entry point (`compiler.rs::compile_thought`): no module registry. -/
def compile_thought (E : ExpModel) (now : ℚ) (fresh : ℕ)
    (context : ContextVector) (memory : MemoryGraph) : EEG :=
  compile_thought_with_modules E now fresh context memory none

/-- Candidate selection (`fossilization.rs::select_fossilization_candidates`):
filter against the five thresholds, sort by priority descending, truncate
to the per-run cap. -/
def select_fossilization_candidates (pattern_report : PatternReport)
    (config : FossilizationConfig) : List FossilizationCandidate :=
  let candidates := pattern_report.fossilization_candidates.filter (fun candidate =>
    decide (config.min_repetition ≤ candidate.repetition_count) &&
    decide (config.min_confidence ≤ candidate.average_confidence) &&
    decide (candidate.context_variance ≤ config.max_context_variance) &&
    decide (config.min_reward_correlation ≤ candidate.reward_correlation) &&
    decide (config.min_speedup ≤ candidate.estimated_speedup))
  let candidates := candidates.mergeSort (fun a b => decide (b.priority ≤ a.priority))
  candidates.take config.max_candidates_per_run

/-- Range/sign well-formedness of one fragment: confidence and salience in
`[0,1]` and a nonnegative decay rate (a rate; every fragment the repository
constructs uses `0.001` or `0.01`). -/
def FragmentWF (f : MFragment) : Prop :=
  0 ≤ f.confidence ∧ f.confidence ≤ 1 ∧ 0 ≤ f.salience ∧ f.salience ≤ 1 ∧
    0 ≤ f.decay_rate

/-- All fragments of a graph are well-formed. -/
def GraphFragmentsWF (g : MemoryGraph) : Prop :=
  ∀ p ∈ g.fragments, FragmentWF p.2

/-- Well-formedness of one store mutation: a decay step uses a nonnegative
time delta (elapsed time). -/
def opWF : MemoryOp → Prop
  | MemoryOp.reinforce _ _ _ => True
  | MemoryOp.decay delta_time => 0 ≤ delta_time

/-- Whether `construct_eeg` materializes an EEG node for this pipeline node
(its `match`: fragment nodes need an existing fragment; gap-fill and
decision nodes always materialize; other node types are skipped). -/
def nodeMaterializes (memory : MemoryGraph) (n : OrderedNode) : Bool :=
  match n.node_type with
  | NodeType.FragmentNode => (mapLookup memory.fragments n.id).isSome
  | NodeType.GapFillNode => true
  | NodeType.DecisionNode => true
  | _ => false

/-- A run of consecutive `reinforce_fragment` calls on one fragment id,
each with its own outcome and timestamp. -/
def reinforceSeq (g : MemoryGraph) (id : ℕ) : List (Outcome × ℚ) → MemoryGraph
  | [] => g
  | c :: rest => reinforceSeq (reinforce_fragment g id c.1 c.2) id rest

/-- A sample fragment content used to evaluate theorems on concrete inputs. -/
def sampleContent : FragmentContent :=
  FragmentContent.EntityRelation (r"server") (r"hosts") (r"api")

/-- A sample well-formed fragment. -/
def sampleFragment : MFragment :=
  ⟨0, FragmentType.EntityRelation, sampleContent, 0.5, 0.5, 0, 0, 0, [], 0, 0.001⟩

/-- A sample edge touching the sample fragment. -/
def sampleEdge : Edge := ⟨0, 1, EdgeType.Causal, 0.5, 0, 0, 0.001⟩

/-- A sample one-fragment, one-edge memory graph. -/
def sampleGraph : MemoryGraph :=
  ⟨[(0, sampleFragment)], [((0, 1), sampleEdge)], ⟨[], [], []⟩, [], [], 1⟩

/-- A success outcome used to evaluate reinforcement on concrete inputs. -/
def successOutcome : Outcome := ⟨OutcomeType.Success, r"ok", none, 1⟩

/-- A fragment with zero salience: decayed salience stays exactly zero. -/
def zeroSalienceFragment : MFragment :=
  ⟨0, FragmentType.EntityRelation, sampleContent, 0.5, 0, 0, 0, 0, [], 0, 1⟩

/-- A one-fragment graph whose fragment has zero salience and positive
decay rate. -/
def zeroSalienceGraph : MemoryGraph :=
  ⟨[(0, zeroSalienceFragment)], [], ⟨[], [], []⟩, [], [], 1⟩

/-- A gap-fill EEG node used to evaluate the executor on concrete inputs. -/
def gapNodeA : EEGNode :=
  ⟨0, NodeType.GapFillNode, NodeContent.GapFill (r"gap") 0.5, 0.5, [], 1⟩

/-- A second gap-fill EEG node. -/
def gapNodeB : EEGNode :=
  ⟨1, NodeType.GapFillNode, NodeContent.GapFill (r"gap") 0.5, 0.5, [], 1⟩

/-- A two-node EEG of gap-fill nodes joined by one edge: its execution
produces a two-entry trace and no fragment outcomes. -/
def twoGapEEG : EEG :=
  ⟨[(0, gapNodeA), (1, gapNodeB)], [⟨0, 1, EdgeType.Causal, none, 1⟩], 0, [1],
    ⟨0, 2, 2, 0.5⟩⟩

/-- The empty memory graph. -/
def emptyMemory : MemoryGraph := ⟨[], [], ⟨[], [], []⟩, [], [], 1⟩

theorem mapLookup_cons {α : Type} (p : ℕ × α) (l : List (ℕ × α)) (k : ℕ) :
    mapLookup (p :: l) k = if p.1 = k then some p.2 else mapLookup l k := by
  unfold mapLookup
  by_cases h : p.1 = k <;> simp [List.find?_cons, h]

theorem mapLookup_map_values {α β : Type} (l : List (ℕ × α)) (f : ℕ → α → β) (k : ℕ) :
    mapLookup (l.map (fun p => (p.1, f p.1 p.2))) k = (mapLookup l k).map (f k) := by
  induction l with
  | nil => rfl
  | cons p l ih =>
    simp only [List.map_cons, mapLookup_cons]
    by_cases h : p.1 = k
    · subst h; simp
    · simp [h, ih]

theorem mapLookup_eq_none_iff {α : Type} (l : List (ℕ × α)) (k : ℕ) :
    mapLookup l k = none ↔ ∀ p ∈ l, p.1 ≠ k := by
  induction l with
  | nil => simp [mapLookup]
  | cons p l ih =>
    rw [mapLookup_cons]
    by_cases h : p.1 = k <;> simp [h, ih]

theorem mapLookup_filter_none {α : Type} (l : List (ℕ × α)) (p : ℕ × α → Bool) (k : ℕ)
    (h : mapLookup l k = none) : mapLookup (l.filter p) k = none := by
  rw [mapLookup_eq_none_iff] at h ⊢
  intro q hq
  exact h q (List.mem_of_mem_filter hq)

/-- C9: every selected fossilization candidate satisfies all five configured
thresholds; the returned list has length at most `max_candidates_per_run`
and is ordered by priority descending. -/
theorem select_fossilization_candidates_spec (pattern_report : PatternReport)
    (config : FossilizationConfig) :
    (∀ c ∈ select_fossilization_candidates pattern_report config,
       config.min_repetition ≤ c.repetition_count ∧
       config.min_confidence ≤ c.average_confidence ∧
       c.context_variance ≤ config.max_context_variance ∧
       config.min_reward_correlation ≤ c.reward_correlation ∧
       config.min_speedup ≤ c.estimated_speedup) ∧
    (select_fossilization_candidates pattern_report config).length ≤
      config.max_candidates_per_run ∧
    List.Pairwise (fun a b => b.priority ≤ a.priority)
      (select_fossilization_candidates pattern_report config) := by
  unfold select_fossilization_candidates
  refine ⟨?_, ?_, ?_⟩
  · intro c hc
    have hc2 := List.mem_of_mem_take hc
    rw [List.mem_mergeSort] at hc2
    have hfilt := List.of_mem_filter hc2
    simp only [Bool.and_eq_true, decide_eq_true_eq] at hfilt
    tauto
  · exact List.length_take_le _ _
  · apply List.Pairwise.sublist (List.take_sublist _ _)
    have hs := @List.sorted_mergeSort FossilizationCandidate
      (fun a b : FossilizationCandidate => decide (b.priority ≤ a.priority))
      (fun a b c hab hbc => by
        simp only [decide_eq_true_eq] at *
        exact le_trans hbc hab)
      (fun a b => by
        simp only [Bool.or_eq_true, decide_eq_true_eq]
        exact le_total b.priority a.priority)
      (pattern_report.fossilization_candidates.filter (fun candidate =>
        decide (config.min_repetition ≤ candidate.repetition_count) &&
        decide (config.min_confidence ≤ candidate.average_confidence) &&
        decide (candidate.context_variance ≤ config.max_context_variance) &&
        decide (config.min_reward_correlation ≤ candidate.reward_correlation) &&
        decide (config.min_speedup ≤ candidate.estimated_speedup)))
    exact hs.imp (fun h => by simpa using h)

theorem mapLookup2_cons {α : Type} (p : (ℕ × ℕ) × α) (l : List ((ℕ × ℕ) × α))
    (k : ℕ × ℕ) : mapLookup2 (p :: l) k = if p.1 = k then some p.2 else mapLookup2 l k := by
  unfold mapLookup2
  by_cases h : p.1 = k <;> simp [List.find?_cons, h]

theorem mapLookup2_map_values {α β : Type} (l : List ((ℕ × ℕ) × α))
    (f : ℕ × ℕ → α → β) (k : ℕ × ℕ) :
    mapLookup2 (l.map (fun p => (p.1, f p.1 p.2))) k = (mapLookup2 l k).map (f k) := by
  induction l with
  | nil => rfl
  | cons p l ih =>
    simp only [List.map_cons, mapLookup2_cons]
    by_cases h : p.1 = k
    · subst h; simp
    · simp [h, ih]

theorem reinforce_lookup (g : MemoryGraph) (id : ℕ) (outcome : Outcome) (now : ℚ)
    (k : ℕ) : mapLookup (reinforce_fragment g id outcome now).fragments k =
      (mapLookup g.fragments k).map (updAt id (reinforceUpd outcome) k) :=
  mapLookup_map_values g.fragments (updAt id (reinforceUpd outcome)) k

theorem reinforce_edges_lookup (g : MemoryGraph) (id : ℕ) (outcome : Outcome)
    (now : ℚ) (k : ℕ × ℕ) :
    mapLookup2 (reinforce_fragment g id outcome now).edges k =
      (mapLookup2 g.edges k).map (reinforceEdgeUpd outcome id now k) :=
  mapLookup2_map_values g.edges (reinforceEdgeUpd outcome id now) k

theorem min_add_min_one (a d : ℚ) (hd : 0 ≤ d) :
    min (min a 1 + d) 1 = min (a + d) 1 := by
  rcases le_total a 1 with h | h
  · rw [min_eq_left h]
  · rw [min_eq_right h,
      min_eq_right (by linarith : (1 : ℚ) ≤ 1 + d),
      min_eq_right (by linarith : (1 : ℚ) ≤ a + d)]

theorem reinforceSeq_lookup (fid : ℕ) (calls : List (Outcome × ℚ))
    (hcalls : ∀ c ∈ calls, c.1.outcome_type = OutcomeType.Success) :
    ∀ g f, mapLookup g.fragments fid = some f → f.confidence ≤ 1 →
    ∃ f', mapLookup (reinforceSeq g fid calls).fragments fid = some f' ∧
      f'.reinforcement_count = f.reinforcement_count + calls.length ∧
      f'.confidence = min (f.confidence + 0.1 * (calls.length : ℚ)) 1 := by
  induction calls with
  | nil =>
    intro g f hf hc1
    exact ⟨f, hf, by simp [reinforceSeq], by
      simp only [List.length_nil, Nat.cast_zero, mul_zero, add_zero]
      exact (min_eq_left hc1).symm⟩
  | cons c rest ih =>
    intro g f hf hc1
    have hsuc : c.1.outcome_type = OutcomeType.Success := hcalls c (by simp)
    have hconfU : (reinforceUpd c.1 f).confidence = min (f.confidence + 0.1) 1 := by
      unfold reinforceUpd
      rw [hsuc]
    have hcountU : (reinforceUpd c.1 f).reinforcement_count =
        f.reinforcement_count + 1 := by
      unfold reinforceUpd
      rw [hsuc]
    have hf1 : mapLookup (reinforce_fragment g fid c.1 c.2).fragments fid =
        some (reinforceUpd c.1 f) := by
      rw [reinforce_lookup, hf, Option.map_some']
      unfold updAt
      rw [if_pos rfl]
    have hrest : ∀ x ∈ rest, x.1.outcome_type = OutcomeType.Success :=
      fun x hx => hcalls x (by simp [hx])
    obtain ⟨f', hlook, hcount, hconf⟩ :=
      ih hrest (reinforce_fragment g fid c.1 c.2) (reinforceUpd c.1 f) hf1
        (by rw [hconfU]; exact min_le_right _ _)
    refine ⟨f', ?_, ?_, ?_⟩
    · simpa [reinforceSeq] using hlook
    · rw [hcount, hcountU]
      simp only [List.length_cons]
      omega
    · rw [hconf, hconfU,
        min_add_min_one (f.confidence + 0.1) (0.1 * (rest.length : ℚ)) (by positivity)]
      simp only [List.length_cons]
      congr 1
      push_cast
      ring

/-- C4: `reinforce_fragment` semantics — on Success: +0.1 confidence clamped
at 1, count +1, +0.05 strength clamped at 1 on every edge touching the id;
on Failure: −0.05 confidence clamped at 0, edges and count unchanged; on
Partial/Uncertain: the graph is unchanged. After N consecutive Success
reinforcements from count 0 and confidence c ≤ 1, the count is exactly N
and the confidence is min(1, c + 0.1·N). -/
theorem reinforce_fragment_spec (g : MemoryGraph) (fid : ℕ) (outcome : Outcome)
    (now : ℚ) (f : MFragment) (hf : mapLookup g.fragments fid = some f) :
    (outcome.outcome_type = OutcomeType.Success →
      mapLookup (reinforce_fragment g fid outcome now).fragments fid =
        some { f with confidence := min (f.confidence + 0.1) 1,
                      reinforcement_count := f.reinforcement_count + 1 } ∧
      (∀ k e, mapLookup2 g.edges k = some e →
        mapLookup2 (reinforce_fragment g fid outcome now).edges k =
          some (if k.1 = fid ∨ k.2 = fid then
            { e with strength := min (e.strength + 0.05) 1, last_reinforced := now }
          else e))) ∧
    (outcome.outcome_type = OutcomeType.Failure →
      mapLookup (reinforce_fragment g fid outcome now).fragments fid =
        some { f with confidence := max (f.confidence - 0.05) 0 } ∧
      (reinforce_fragment g fid outcome now).edges = g.edges) ∧
    (outcome.outcome_type ≠ OutcomeType.Success →
      outcome.outcome_type ≠ OutcomeType.Failure →
      reinforce_fragment g fid outcome now = g) ∧
    (∀ calls : List (Outcome × ℚ),
      (∀ c ∈ calls, c.1.outcome_type = OutcomeType.Success) →
      f.reinforcement_count = 0 → f.confidence ≤ 1 →
      ∃ f', mapLookup (reinforceSeq g fid calls).fragments fid = some f' ∧
        f'.reinforcement_count = calls.length ∧
        f'.confidence = min (f.confidence + 0.1 * (calls.length : ℚ)) 1) := by
  refine ⟨?_, ?_, ?_, ?_⟩
  · intro hsuc
    constructor
    · rw [reinforce_lookup, hf, Option.map_some']
      unfold updAt
      rw [if_pos rfl]
      unfold reinforceUpd
      rw [hsuc]
    · intro k e hk
      rw [reinforce_edges_lookup, hk, Option.map_some']
      unfold reinforceEdgeUpd
      by_cases hke : k.1 = fid ∨ k.2 = fid
      · rw [if_pos ⟨hke, hsuc⟩, if_pos hke]
      · rw [if_neg (fun h => hke h.1), if_neg hke]
  · intro hfail
    constructor
    · rw [reinforce_lookup, hf, Option.map_some']
      unfold updAt
      rw [if_pos rfl]
      unfold reinforceUpd
      rw [hfail]
    · show List.map _ g.edges = g.edges
      have hpt : ∀ p ∈ g.edges, (p.1, reinforceEdgeUpd outcome fid now p.1 p.2) =
          (fun q => q) p := by
        intro p _
        unfold reinforceEdgeUpd
        rw [if_neg (fun h => by rw [hfail] at h; exact absurd h.2 (by simp))]
      rw [List.map_congr_left hpt, List.map_id']
  · intro hns hnf
    have hupd : ∀ v : MFragment, reinforceUpd outcome v = v := by
      intro v
      unfold reinforceUpd
      cases h : outcome.outcome_type
      · exact absurd h hns
      · exact absurd h hnf
      · rfl
      · rfl
    have hfr : List.map (fun p => (p.1, updAt fid (reinforceUpd outcome) p.1 p.2))
        g.fragments = g.fragments := by
      have hpt : ∀ p ∈ g.fragments,
          ((p.1, updAt fid (reinforceUpd outcome) p.1 p.2) : ℕ × MFragment) =
          (fun q => q) p := by
        intro p _
        unfold updAt
        split <;> simp [hupd]
      rw [List.map_congr_left hpt, List.map_id']
    have hed : List.map (fun p => (p.1, reinforceEdgeUpd outcome fid now p.1 p.2))
        g.edges = g.edges := by
      have hpt : ∀ p ∈ g.edges,
          ((p.1, reinforceEdgeUpd outcome fid now p.1 p.2) : (ℕ × ℕ) × Edge) =
          (fun q => q) p := by
        intro p _
        unfold reinforceEdgeUpd
        rw [if_neg (fun h => by
          cases hto : outcome.outcome_type
          · exact hns hto
          · exact hnf hto
          · rw [hto] at h; exact absurd h.2 (by simp)
          · rw [hto] at h; exact absurd h.2 (by simp))]
      rw [List.map_congr_left hpt, List.map_id']
    show { g with fragments := _, edges := _ } = g
    rw [hfr, hed]
  · intro calls hcalls hcount hc1
    obtain ⟨f', h1, h2, h3⟩ := reinforceSeq_lookup fid calls hcalls g f hf hc1
    exact ⟨f', h1, by rw [h2, hcount, Nat.zero_add], h3⟩

/-- Concrete instantiation of C4 at a one-fragment graph: the hypothesis
holds by evaluation and the Success clause yields the clamped update. -/
theorem reinforce_fragment_spec_witness :
    mapLookup sampleGraph.fragments 0 = some sampleFragment ∧
    mapLookup (reinforce_fragment sampleGraph 0 successOutcome 0).fragments 0 =
      some { sampleFragment with
              confidence := min (sampleFragment.confidence + 0.1) 1,
              reinforcement_count := sampleFragment.reinforcement_count + 1 } :=
  ⟨rfl, ((reinforce_fragment_spec sampleGraph 0 successOutcome 0 sampleFragment rfl).1 rfl).1⟩

theorem reinforceUpd_WF (outcome : Outcome) (f : MFragment) (hf : FragmentWF f) :
    FragmentWF (reinforceUpd outcome f) := by
  obtain ⟨h1, h2, h3, h4, h5⟩ := hf
  unfold reinforceUpd
  cases outcome.outcome_type
  · exact ⟨le_min (by linarith) (by norm_num), min_le_right _ _, h3, h4, h5⟩
  · exact ⟨le_max_right _ _, max_le (by linarith) (by norm_num), h3, h4, h5⟩
  · exact ⟨h1, h2, h3, h4, h5⟩
  · exact ⟨h1, h2, h3, h4, h5⟩

theorem reinforceUpd_count_le (outcome : Outcome) (f : MFragment) :
    f.reinforcement_count ≤ (reinforceUpd outcome f).reinforcement_count := by
  unfold reinforceUpd
  cases outcome.outcome_type
  · exact Nat.le_succ _
  · exact le_refl _
  · exact le_refl _
  · exact le_refl _

theorem reinforce_WF (g : MemoryGraph) (fid : ℕ) (outcome : Outcome) (now : ℚ)
    (hg : GraphFragmentsWF g) :
    GraphFragmentsWF (reinforce_fragment g fid outcome now) := by
  intro p hp
  simp only [reinforce_fragment, List.mem_map] at hp
  obtain ⟨q, hq, hpq⟩ := hp
  subst hpq
  show FragmentWF (updAt fid (reinforceUpd outcome) q.1 q.2)
  unfold updAt
  split
  · exact reinforceUpd_WF outcome q.2 (hg q hq)
  · exact hg q hq

theorem effective_rate_nonneg (f : MFragment) (h5 : 0 ≤ f.decay_rate) :
    0 ≤ f.decay_rate * (1 - min ((f.reinforcement_count : ℚ) * 0.99) 0.9999) := by
  apply mul_nonneg h5
  have := min_le_right ((f.reinforcement_count : ℚ) * 0.99) 0.9999
  linarith

theorem decayFragment_WF (E : ExpModel) (delta_time : ℚ) (f : MFragment)
    (hdt : 0 ≤ delta_time) (hf : FragmentWF f) :
    FragmentWF (decayFragment E delta_time f) := by
  obtain ⟨h1, h2, h3, h4, h5⟩ := hf
  unfold decayFragment
  split
  · refine ⟨?_, ?_, ?_, ?_, h5⟩
    · exact le_trans (mul_nonneg h1 (E.exp_pos _).le) (le_max_left _ _)
    · apply max_le
      · calc f.confidence * E.exp (-(f.decay_rate *
              (1 - min ((f.reinforcement_count : ℚ) * 0.99) 0.9999)) * 0.1 * delta_time)
            ≤ f.confidence * 1 := by
              apply mul_le_mul_of_nonneg_left _ h1
              apply E.exp_le_one
              have hr := effective_rate_nonneg f h5
              nlinarith
          _ = f.confidence := mul_one _
          _ ≤ 1 := h2
      · exact le_trans (min_le_right _ _) (by norm_num)
    · exact mul_nonneg h3 (E.exp_pos _).le
    · calc f.salience * E.exp (-(f.decay_rate *
            (1 - min ((f.reinforcement_count : ℚ) * 0.99) 0.9999)) * delta_time)
          ≤ f.salience * 1 := by
            apply mul_le_mul_of_nonneg_left _ h3
            apply E.exp_le_one
            have hr := effective_rate_nonneg f h5
            nlinarith
        _ = f.salience := mul_one _
        _ ≤ 1 := h4
  · refine ⟨?_, ?_, ?_, ?_, h5⟩
    · exact mul_nonneg h1 (E.exp_pos _).le
    · calc f.confidence * E.exp (-f.decay_rate * 0.1 * delta_time)
          ≤ f.confidence * 1 := by
            apply mul_le_mul_of_nonneg_left _ h1
            apply E.exp_le_one
            nlinarith
        _ = f.confidence := mul_one _
        _ ≤ 1 := h2
    · exact mul_nonneg h3 (E.exp_pos _).le
    · calc f.salience * E.exp (-f.decay_rate * delta_time)
          ≤ f.salience * 1 := by
            apply mul_le_mul_of_nonneg_left _ h3
            apply E.exp_le_one
            nlinarith
        _ = f.salience := mul_one _
        _ ≤ 1 := h4

theorem decay_WF (E : ExpModel) (g : MemoryGraph) (delta_time : ℚ)
    (hdt : 0 ≤ delta_time) (hg : GraphFragmentsWF g) :
    GraphFragmentsWF (decay_memory E g delta_time) := by
  intro p hp
  simp only [decay_memory, List.mem_filter, List.mem_map] at hp
  obtain ⟨⟨q, hq, hpq⟩, _⟩ := hp
  subst hpq
  exact decayFragment_WF E delta_time q.2 hdt (hg q hq)

theorem decayFragment_count (E : ExpModel) (delta_time : ℚ) (f : MFragment) :
    (decayFragment E delta_time f).reinforcement_count = f.reinforcement_count := by
  unfold decayFragment
  split <;> rfl

theorem lookup_map_filter_count (F : MFragment → MFragment)
    (pr : ℕ × MFragment → Bool)
    (hc : ∀ v, (F v).reinforcement_count = v.reinforcement_count)
    (hevict : ∀ q : ℕ × MFragment, pr (q.1, F q.2) = false →
      (F q.2).reinforcement_count = 0) :
    ∀ (l : List (ℕ × MFragment)) (k : ℕ) (f f' : MFragment),
    mapLookup l k = some f →
    mapLookup ((l.map (fun q => (q.1, F q.2))).filter pr) k = some f' →
    f.reinforcement_count ≤ f'.reinforcement_count := by
  intro l
  induction l with
  | nil => intro k f f' h1 _; simp [mapLookup] at h1
  | cons q l ih =>
    intro k f f' h1 h2
    rw [mapLookup_cons] at h1
    rw [List.map_cons] at h2
    by_cases hk : q.1 = k
    · rw [if_pos hk] at h1
      injection h1 with hfq
      cases hpr : pr (q.1, F q.2) with
      | true =>
        rw [List.filter_cons_of_pos hpr] at h2
        rw [mapLookup_cons, if_pos hk] at h2
        injection h2 with hfq'
        rw [← hfq, ← hfq', hc]
      | false =>
        have hz : q.2.reinforcement_count = 0 := (hc q.2).symm.trans (hevict q hpr)
        rw [← hfq, hz]
        exact Nat.zero_le _
    · rw [if_neg hk] at h1
      cases hpr : pr (q.1, F q.2) with
      | true =>
        rw [List.filter_cons_of_pos hpr, mapLookup_cons, if_neg hk] at h2
        exact ih k f f' h1 h2
      | false =>
        rw [List.filter_cons_of_neg (by simp [hpr])] at h2
        exact ih k f f' h1 h2

theorem decay_count_le (E : ExpModel) (g : MemoryGraph) (delta_time : ℚ)
    (k : ℕ) (f f' : MFragment) (h1 : mapLookup g.fragments k = some f)
    (h2 : mapLookup (decay_memory E g delta_time).fragments k = some f') :
    f.reinforcement_count ≤ f'.reinforcement_count := by
  refine lookup_map_filter_count (decayFragment E delta_time)
    (fun p => ! fragmentEvicted p.2) (decayFragment_count E delta_time) ?_
    g.fragments k f f' h1 h2
  intro q hq
  simp only [Bool.not_eq_false'] at hq
  unfold fragmentEvicted at hq
  rw [decide_eq_true_eq] at hq
  omega

theorem reinforce_count_le (g : MemoryGraph) (fid : ℕ) (outcome : Outcome)
    (now : ℚ) (k : ℕ) (f f' : MFragment)
    (h1 : mapLookup g.fragments k = some f)
    (h2 : mapLookup (reinforce_fragment g fid outcome now).fragments k = some f') :
    f.reinforcement_count ≤ f'.reinforcement_count := by
  rw [reinforce_lookup, h1, Option.map_some'] at h2
  injection h2 with h2
  rw [← h2]
  unfold updAt
  split
  · exact reinforceUpd_count_le outcome f
  · exact le_refl _

theorem applyOp_WF (E : ExpModel) (g : MemoryGraph) (op : MemoryOp)
    (hg : GraphFragmentsWF g) (hop : opWF op) :
    GraphFragmentsWF (applyOp E g op) := by
  cases op with
  | reinforce fid outcome now => exact reinforce_WF g fid outcome now hg
  | decay delta_time => exact decay_WF E g delta_time hop hg

theorem applyOp_count_le (E : ExpModel) (g : MemoryGraph) (op : MemoryOp)
    (k : ℕ) (f f' : MFragment) (h1 : mapLookup g.fragments k = some f)
    (h2 : mapLookup (applyOp E g op).fragments k = some f') :
    f.reinforcement_count ≤ f'.reinforcement_count := by
  cases op with
  | reinforce fid outcome now => exact reinforce_count_le g fid outcome now k f f' h1 h2
  | decay delta_time => exact decay_count_le E g delta_time k f f' h1 h2

theorem applyOp_lookup_none (E : ExpModel) (g : MemoryGraph) (op : MemoryOp)
    (k : ℕ) (h : mapLookup g.fragments k = none) :
    mapLookup (applyOp E g op).fragments k = none := by
  cases op with
  | reinforce fid outcome now =>
    show mapLookup (reinforce_fragment g fid outcome now).fragments k = none
    rw [reinforce_lookup, h]
    rfl
  | decay delta_time =>
    show mapLookup (decay_memory E g delta_time).fragments k = none
    simp only [decay_memory]
    apply mapLookup_filter_none
    rw [mapLookup_map_values g.fragments (fun _ v => decayFragment E delta_time v) k, h]
    rfl

theorem applyOps_lookup_none (E : ExpModel) (ops : List MemoryOp) :
    ∀ (g : MemoryGraph) (k : ℕ), mapLookup g.fragments k = none →
    mapLookup (applyOps E g ops).fragments k = none := by
  induction ops with
  | nil => intro g k h; exact h
  | cons op rest ih =>
    intro g k h
    exact ih (applyOp E g op) k (applyOp_lookup_none E g op k h)

/-- C3: starting from a graph whose fragments have confidence and salience
in [0,1] (and nonnegative decay rates), any sequence of
`reinforce_fragment` and `decay_memory` calls (with nonnegative time
deltas) keeps every fragment's confidence and salience in [0,1], and never
decreases any surviving fragment's reinforcement count. -/
theorem memory_invariants (E : ExpModel) (g : MemoryGraph) (ops : List MemoryOp)
    (hg : GraphFragmentsWF g) (hops : ∀ op ∈ ops, opWF op) :
    GraphFragmentsWF (applyOps E g ops) ∧
    (∀ k f f', mapLookup g.fragments k = some f →
      mapLookup (applyOps E g ops).fragments k = some f' →
      f.reinforcement_count ≤ f'.reinforcement_count) := by
  induction ops generalizing g with
  | nil =>
    refine ⟨hg, ?_⟩
    intro k f f' h1 h2
    rw [show applyOps E g [] = g from rfl, h1] at h2
    injection h2 with h2
    rw [h2]
  | cons op rest ih =>
    have hop : opWF op := hops op (by simp)
    have hrest : ∀ x ∈ rest, opWF x := fun x hx => hops x (by simp [hx])
    have hg1 : GraphFragmentsWF (applyOp E g op) := applyOp_WF E g op hg hop
    obtain ⟨ihWF, ihCount⟩ := ih (applyOp E g op) hg1 hrest
    refine ⟨ihWF, ?_⟩
    intro k f f' h1 h2
    cases h3 : mapLookup (applyOp E g op).fragments k with
    | none =>
      rw [show applyOps E g (op :: rest) = applyOps E (applyOp E g op) rest from rfl] at h2
      rw [applyOps_lookup_none E rest (applyOp E g op) k h3] at h2
      exact absurd h2 (by simp)
    | some f1 =>
      have hstep := applyOp_count_le E g op k f f1 h1 h3
      have htail := ihCount k f1 f' h3 h2
      omega

/-- Concrete instantiation of C3: a Success reinforcement followed by a
unit-time decay on the sample graph preserves the invariants. -/
theorem memory_invariants_witness :
    GraphFragmentsWF sampleGraph ∧
    (∀ op ∈ [MemoryOp.reinforce 0 successOutcome 0, MemoryOp.decay 1], opWF op) ∧
    GraphFragmentsWF (applyOps ratExp sampleGraph
      [MemoryOp.reinforce 0 successOutcome 0, MemoryOp.decay 1]) := by
  have h1 : GraphFragmentsWF sampleGraph := by
    intro p hp
    simp only [sampleGraph, List.mem_singleton] at hp
    subst hp
    refine ⟨?_, ?_, ?_, ?_, ?_⟩ <;> norm_num [sampleFragment, FragmentWF]
  have h2 : ∀ op ∈ [MemoryOp.reinforce 0 successOutcome 0, MemoryOp.decay 1], opWF op := by
    intro op hop
    simp only [List.mem_cons, List.mem_singleton, List.not_mem_nil, or_false] at hop
    rcases hop with rfl | rfl
    · exact trivial
    · exact zero_le_one
  exact ⟨h1, h2, (memory_invariants ratExp sampleGraph _ h1 h2).1⟩

theorem mapLookup_map_filter_first (F : MFragment → MFragment)
    (pr : ℕ × MFragment → Bool) :
    ∀ (l : List (ℕ × MFragment)) (k : ℕ) (f : MFragment),
    mapLookup l k = some f → pr (k, F f) = true →
    mapLookup ((l.map (fun q => (q.1, F q.2))).filter pr) k = some (F f) := by
  intro l
  induction l with
  | nil => intro k f h1 _; simp [mapLookup] at h1
  | cons q l ih =>
    intro k f h1 hpr
    rw [mapLookup_cons] at h1
    simp only [List.map_cons]
    by_cases hk : q.1 = k
    · rw [if_pos hk] at h1
      injection h1 with hfq
      subst hfq
      subst hk
      rw [List.filter_cons_of_pos hpr, mapLookup_cons, if_pos rfl]
    · rw [if_neg hk] at h1
      cases hq : pr (q.1, F q.2) with
      | true =>
        rw [List.filter_cons_of_pos hq, mapLookup_cons, if_neg hk]
        exact ih k f h1 hpr
      | false =>
        rw [List.filter_cons_of_neg (by simp [hq])]
        exact ih k f h1 hpr

/-- C5 (amended): for a fragment with positive decay rate, positive
salience and positive confidence, one decay step with positive Δt strictly
reduces salience, and salience decays at least as fast as confidence
(post/pre salience ratio bounded by the post/pre confidence ratio);
`decay_memory` stores exactly this decayed fragment whenever it survives
eviction. -/
theorem decay_strict_salience (E : ExpModel) (delta_time : ℚ) (f : MFragment)
    (hrate : 0 < f.decay_rate) (hdt : 0 < delta_time)
    (hsal : 0 < f.salience) (hconf : 0 < f.confidence) :
    (decayFragment E delta_time f).salience < f.salience ∧
    (decayFragment E delta_time f).salience / f.salience ≤
      (decayFragment E delta_time f).confidence / f.confidence ∧
    (∀ g k, mapLookup g.fragments k = some f →
      fragmentEvicted (decayFragment E delta_time f) = false →
      mapLookup (decay_memory E g delta_time).fragments k =
        some (decayFragment E delta_time f)) := by
  refine ⟨?_, ?_, ?_⟩
  · unfold decayFragment
    split
    · have heff : 0 < f.decay_rate *
          (1 - min ((f.reinforcement_count : ℚ) * 0.99) 0.9999) := by
        have := min_le_right ((f.reinforcement_count : ℚ) * 0.99) 0.9999
        nlinarith
      have hexp : E.exp (-(f.decay_rate *
          (1 - min ((f.reinforcement_count : ℚ) * 0.99) 0.9999)) * delta_time) < 1 := by
        apply E.exp_lt_one
        nlinarith
      exact mul_lt_of_lt_one_right hsal hexp
    · have hexp : E.exp (-f.decay_rate * delta_time) < 1 := by
        apply E.exp_lt_one
        nlinarith
      exact mul_lt_of_lt_one_right hsal hexp
  · unfold decayFragment
    split
    · have heff : 0 < f.decay_rate *
          (1 - min ((f.reinforcement_count : ℚ) * 0.99) 0.9999) := by
        have := min_le_right ((f.reinforcement_count : ℚ) * 0.99) 0.9999
        nlinarith
      have hmono : E.exp (-(f.decay_rate *
            (1 - min ((f.reinforcement_count : ℚ) * 0.99) 0.9999)) * delta_time) ≤
          E.exp (-(f.decay_rate *
            (1 - min ((f.reinforcement_count : ℚ) * 0.99) 0.9999)) * 0.1 * delta_time) := by
        apply E.exp_mono
        nlinarith
      have hsal_div : f.salience * E.exp (-(f.decay_rate *
            (1 - min ((f.reinforcement_count : ℚ) * 0.99) 0.9999)) * delta_time) /
            f.salience =
          E.exp (-(f.decay_rate *
            (1 - min ((f.reinforcement_count : ℚ) * 0.99) 0.9999)) * delta_time) :=
        mul_div_cancel_left₀ _ (ne_of_gt hsal)
      show f.salience * _ / f.salience ≤ max _ _ / f.confidence
      rw [hsal_div]
      calc E.exp (-(f.decay_rate *
            (1 - min ((f.reinforcement_count : ℚ) * 0.99) 0.9999)) * delta_time)
          ≤ E.exp (-(f.decay_rate *
            (1 - min ((f.reinforcement_count : ℚ) * 0.99) 0.9999)) * 0.1 * delta_time) :=
            hmono
        _ = f.confidence * E.exp (-(f.decay_rate *
            (1 - min ((f.reinforcement_count : ℚ) * 0.99) 0.9999)) * 0.1 * delta_time) /
            f.confidence :=
            (mul_div_cancel_left₀ _ (ne_of_gt hconf)).symm
        _ ≤ max (f.confidence * E.exp (-(f.decay_rate *
            (1 - min ((f.reinforcement_count : ℚ) * 0.99) 0.9999)) * 0.1 * delta_time))
              (min (0.5 + max ((f.reinforcement_count : ℚ) - 1) 0 * 0.05 + 0.1) 0.95) /
            f.confidence :=
            (div_le_div_iff_of_pos_right hconf).mpr (le_max_left _ _)
    · have hmono : E.exp (-f.decay_rate * delta_time) ≤
          E.exp (-f.decay_rate * 0.1 * delta_time) := by
        apply E.exp_mono
        nlinarith
      show f.salience * _ / f.salience ≤ f.confidence * _ / f.confidence
      rw [mul_div_cancel_left₀ _ (ne_of_gt hsal), mul_div_cancel_left₀ _ (ne_of_gt hconf)]
      exact hmono
  · intro g k hk hkeep
    show mapLookup (decay_memory E g delta_time).fragments k = _
    simp only [decay_memory]
    apply mapLookup_map_filter_first (decayFragment E delta_time)
      (fun p => ! fragmentEvicted p.2) g.fragments k f hk
    simp [hkeep]

/-- C5 counterexample: a fragment with positive decay rate but zero
salience is not strictly reduced by `decay_memory` with Δt = 1. -/
theorem decay_strict_salience_counterexample :
    0 < zeroSalienceFragment.decay_rate ∧ (0 : ℚ) < 1 ∧
    mapLookup zeroSalienceGraph.fragments 0 = some zeroSalienceFragment ∧
    ¬ (∀ f', mapLookup (decay_memory ratExp zeroSalienceGraph 1).fragments 0 = some f' →
        f'.salience < zeroSalienceFragment.salience) := by
  refine ⟨by norm_num [zeroSalienceFragment], by norm_num, rfl, ?_⟩
  intro h
  have hfe : fragmentEvicted (decayFragment ratExp 1 zeroSalienceFragment) = false := by
    unfold fragmentEvicted decayFragment zeroSalienceFragment ratExp ratExpFun
    norm_num
  have hlook := mapLookup_map_filter_first (decayFragment ratExp 1)
    (fun p => ! fragmentEvicted p.2) zeroSalienceGraph.fragments 0 zeroSalienceFragment
    rfl (by simp [hfe])
  have h2 := h (decayFragment ratExp 1 zeroSalienceFragment) hlook
  have e1 : (decayFragment ratExp 1 zeroSalienceFragment).salience = 0 := by
    unfold decayFragment zeroSalienceFragment
    norm_num
  have e2 : zeroSalienceFragment.salience = 0 := rfl
  rw [e1, e2] at h2
  exact lt_irrefl 0 h2

theorem walk_preserves_memory (eeg : EEG) : ∀ (fuel cur : ℕ) (visited : Finset ℕ)
    (memory : MemoryGraph) (s : WalkState),
    (walk eeg fuel cur visited memory s).2.1 = memory := by
  intro fuel
  induction fuel with
  | zero => intro _ _ _ _; rfl
  | succ n ih =>
    intro cur visited memory s
    simp only [walk]
    repeat' split
    all_goals first | rfl | apply ih

theorem nodup_append_singleton {l : List ℕ} {a : ℕ} (h : l.Nodup) (ha : a ∉ l) :
    (l ++ [a]).Nodup := by
  rw [List.nodup_append]
  exact ⟨h, List.nodup_singleton a, by simpa [List.disjoint_singleton] using ha⟩

theorem walk_trace_nodup (eeg : EEG) : ∀ (fuel cur : ℕ) (visited : Finset ℕ)
    (memory : MemoryGraph) (s : WalkState),
    s.execution_trace.Nodup → (∀ x ∈ s.execution_trace, x ∈ visited) →
    (walk eeg fuel cur visited memory s).1.execution_trace.Nodup := by
  intro fuel
  induction fuel with
  | zero => intro _ _ _ _ h1 _; exact h1
  | succ n ih =>
    intro cur visited memory s h1 h2
    simp only [walk]
    split
    · exact h1
    · split
      · exact h1
      · next hv =>
        have h1' : (s.execution_trace ++ [cur]).Nodup :=
          nodup_append_singleton h1 (fun hm => hv (h2 cur hm))
        have h2' : ∀ x ∈ s.execution_trace ++ [cur], x ∈ insert cur visited := by
          intro x hx
          rcases List.mem_append.mp hx with hx | hx
          · exact Finset.mem_insert_of_mem (h2 x hx)
          · rw [List.mem_singleton] at hx
            subst hx
            exact Finset.mem_insert_self _ _
        repeat' split
        all_goals first
          | exact h1'
          | exact ih _ _ _ _ h1' h2'

theorem mapLookup_mem_keys {α : Type} {l : List (ℕ × α)} {k : ℕ} {v : α}
    (h : mapLookup l k = some v) : k ∈ l.map Prod.fst := by
  induction l with
  | nil => simp [mapLookup] at h
  | cons p l ih =>
    rw [mapLookup_cons] at h
    by_cases hk : p.1 = k
    · simp [← hk]
    · rw [if_neg hk] at h
      simp [ih h]

theorem walk_finishes (eeg : EEG) : ∀ (fuel cur : ℕ) (visited : Finset ℕ)
    (memory : MemoryGraph) (s : WalkState),
    ((eeg.nodes.map Prod.fst).toFinset \ visited).card < fuel →
    (walk eeg fuel cur visited memory s).2.2 = true := by
  intro fuel
  induction fuel with
  | zero => intro _ _ _ _ hlt; omega
  | succ n ih =>
    intro cur visited memory s hlt
    simp only [walk]
    split
    · rfl
    · next node hnode =>
      split
      · rfl
      · next hv =>
        have hmem : cur ∈ (eeg.nodes.map Prod.fst).toFinset \ visited := by
          rw [Finset.mem_sdiff]
          exact ⟨List.mem_toFinset.mpr (mapLookup_mem_keys hnode), hv⟩
        have hcard : ((eeg.nodes.map Prod.fst).toFinset \ insert cur visited).card < n := by
          rw [Finset.sdiff_insert]
          rw [Finset.card_erase_of_mem hmem]
          have hpos : 0 < ((eeg.nodes.map Prod.fst).toFinset \ visited).card :=
            Finset.card_pos.mpr ⟨cur, hmem⟩
          omega
        repeat' split
        all_goals first
          | rfl
          | exact ih _ _ _ _ hcard

/-- C6: the executor terminates on every EEG — the walk with fuel
`nodes.length + 1` (the fuel `execute_eeg` uses) always exits through one
of the loop's own break conditions, on cyclic EEGs included — and the
execution trace it returns contains no duplicate node ids. -/
theorem execute_eeg_terminates_nodup (eeg : EEG) (memory : MemoryGraph) :
    (walk eeg (walkFuel eeg) eeg.entry_point ∅ memory initWalkState).2.2 = true ∧
    (execute_eeg eeg memory).1.execution_trace.Nodup := by
  constructor
  · apply walk_finishes
    unfold walkFuel
    have h1 : ((eeg.nodes.map Prod.fst).toFinset \ ∅).card ≤ eeg.nodes.length := by
      rw [Finset.sdiff_empty]
      calc (eeg.nodes.map Prod.fst).toFinset.card
          ≤ (eeg.nodes.map Prod.fst).length := List.toFinset_card_le _
        _ = eeg.nodes.length := List.length_map _ _
    omega
  · exact walk_trace_nodup eeg (walkFuel eeg) eeg.entry_point ∅ memory initWalkState
      List.nodup_nil (by intro x hx; simp [initWalkState] at hx)

/-- C10: execution leaves the memory graph completely unchanged — the
walk threads the graph through untouched, so the graph handed back by
`execute_eeg_with_context` (and `execute_eeg`) is the input graph;
reinforcement signals are only queued in the returned result. -/
theorem execute_eeg_frame (eeg : EEG) (memory : MemoryGraph)
    (context : Option ContextVector) :
    (execute_eeg_with_context eeg memory context).2 = memory ∧
    (execute_eeg eeg memory).2 = memory :=
  ⟨walk_preserves_memory eeg (walkFuel eeg) eeg.entry_point ∅ memory initWalkState,
   walk_preserves_memory eeg (walkFuel eeg) eeg.entry_point ∅ memory initWalkState⟩

/-- C1 (amended): the outcome type of `execute_eeg` is Success exactly
when the execution trace has length greater than 1, whether or not any
fragment outcome was produced; otherwise it is Partial. -/
theorem execute_eeg_success_iff (eeg : EEG) (memory : MemoryGraph) :
    ((execute_eeg eeg memory).1.outcome.outcome_type = OutcomeType.Success ↔
      1 < (execute_eeg eeg memory).1.execution_trace.length) ∧
    ((execute_eeg eeg memory).1.outcome.outcome_type = OutcomeType.Partial ↔
      ¬ 1 < (execute_eeg eeg memory).1.execution_trace.length) := by
  unfold execute_eeg execute_eeg_with_context
  by_cases hfo : ((walk eeg (walkFuel eeg) eeg.entry_point ∅ memory
      initWalkState).1.fragment_outcomes).isEmpty
  · by_cases hlen : 1 < (walk eeg (walkFuel eeg) eeg.entry_point ∅ memory
        initWalkState).1.execution_trace.length
    · simp [hfo, hlen]
    · simp [hfo, hlen]
  · by_cases hlen : 1 < (walk eeg (walkFuel eeg) eeg.entry_point ∅ memory
        initWalkState).1.execution_trace.length
    · simp [hfo, hlen]
    · simp [hfo, hlen]

/-- C1 counterexample: executing a two-gap-node EEG yields a Success
outcome although no fragment outcome was produced, refuting "Success iff
(≥1 fragment outcome ∧ trace length > 1)". -/
theorem execute_eeg_success_iff_counterexample :
    ¬ ((execute_eeg twoGapEEG emptyMemory).1.outcome.outcome_type = OutcomeType.Success ↔
      (fragment_outcomes_of twoGapEEG emptyMemory ≠ [] ∧
       1 < (execute_eeg twoGapEEG emptyMemory).1.execution_trace.length)) := by
  intro hiff
  have hsuc : (execute_eeg twoGapEEG emptyMemory).1.outcome.outcome_type =
      OutcomeType.Success := rfl
  exact (hiff.mp hsuc).1 rfl

theorem edgeExpansion_empty_explore (g : MemoryGraph) (context : ContextVector)
    (n : ℕ) (activated explored : List ℕ) :
    edgeExpansion g context n (activated, [], explored) = (activated, [], explored) := by
  cases n with
  | zero => rfl
  | succ m => simp [edgeExpansion]

theorem scoreCandidates_no_fragments (E : ExpModel) (now : ℚ) (g : MemoryGraph)
    (context : ContextVector) (candidates : List ℕ) (hg : g.fragments = []) :
    scoreCandidates E now g context candidates = [] := by
  apply List.filterMap_eq_nil_iff.mpr
  intro a _
  rw [hg]
  rfl

theorem activate_fragments_no_fragments (E : ExpModel) (now : ℚ) (g : MemoryGraph)
    (context : ContextVector) (hg : g.fragments = []) :
    (activate_fragments E now g context).1 = [] := by
  have h1 := scoreCandidates_no_fragments E now g context (gatherCandidates g context) hg
  unfold activate_fragments
  simp only [h1, List.mergeSort_nil, List.take_nil, List.map_nil,
    edgeExpansion_empty_explore]

theorem activate_fragments_time_pressure (E : ExpModel) (now : ℚ) (g : MemoryGraph)
    (context : ContextVector) (p : ℚ) :
    activate_fragments E now g { context with time_pressure := p } =
      activate_fragments E now g context := rfl

/-- C8: on a memory graph containing no fragments, `compile_thought`
returns an EEG with exactly one node — a gap-fill node with confidence
0.3 — which is both the entry point and the sole exit point. -/
theorem compile_thought_empty_memory (E : ExpModel) (now : ℚ) (fresh : ℕ)
    (context : ContextVector) (g : MemoryGraph) (hg : g.fragments = []) :
    ∃ gid node,
      (compile_thought E now fresh context g).nodes = [(gid, node)] ∧
      node.node_type = NodeType.GapFillNode ∧
      node.confidence = 0.3 ∧
      (compile_thought E now fresh context g).entry_point = gid ∧
      (compile_thought E now fresh context g).exit_points = [gid] := by
  have hc : compile_thought E now fresh context g = create_empty_eeg context now fresh := by
    unfold compile_thought compile_thought_with_modules
    simp only [activate_fragments_no_fragments E now g context hg,
      List.isEmpty_nil, if_true]
  rw [hc]
  exact ⟨fresh, _, rfl, rfl, rfl, rfl, rfl⟩

/-- Concrete instantiation of C8 at the empty memory graph. -/
theorem compile_thought_empty_memory_witness :
    emptyMemory.fragments = [] ∧
    ∃ gid node,
      (compile_thought ratExp 0 0
        ⟨⟨r"goal", GoalType.Debug, [], 1⟩, ⟨[], [], [], []⟩, ⟨0, 0, 0, 0, 0⟩,
          ⟨[], [], []⟩, [], 0, ⟨r"dom", none, []⟩, 0.5, 10⟩ emptyMemory).nodes =
        [(gid, node)] ∧
      node.node_type = NodeType.GapFillNode ∧
      node.confidence = 0.3 ∧
      (compile_thought ratExp 0 0
        ⟨⟨r"goal", GoalType.Debug, [], 1⟩, ⟨[], [], [], []⟩, ⟨0, 0, 0, 0, 0⟩,
          ⟨[], [], []⟩, [], 0, ⟨r"dom", none, []⟩, 0.5, 10⟩ emptyMemory).entry_point = gid ∧
      (compile_thought ratExp 0 0
        ⟨⟨r"goal", GoalType.Debug, [], 1⟩, ⟨[], [], [], []⟩, ⟨0, 0, 0, 0, 0⟩,
          ⟨[], [], []⟩, [], 0, ⟨r"dom", none, []⟩, 0.5, 10⟩ emptyMemory).exit_points = [gid] :=
  ⟨rfl, compile_thought_empty_memory ratExp 0 0 _ emptyMemory rfl⟩

theorem mapLookup_isSome_of_mem {α : Type} {m : List (ℕ × α)} {k : ℕ}
    (h : k ∈ m.map Prod.fst) : (mapLookup m k).isSome = true := by
  induction m with
  | nil => simp at h
  | cons p l ih =>
    rw [mapLookup_cons]
    by_cases hk : p.1 = k
    · simp [hk]
    · rw [if_neg hk]
      apply ih
      simp only [List.map_cons, List.mem_cons] at h
      rcases h with h | h
      · exact absurd h.symm hk
      · exact h

theorem mapInsert_ne_nil {α : Type} (m : List (ℕ × α)) (k : ℕ) (v : α) :
    mapInsert m k v ≠ [] := by
  cases m with
  | nil => simp [mapInsert, mapLookup]
  | cons p l =>
    unfold mapInsert
    split <;> simp

theorem mapInsert_keys {α : Type} (m : List (ℕ × α)) (k : ℕ) (v : α) :
    (mapInsert m k v).map Prod.fst =
      if (mapLookup m k).isSome then m.map Prod.fst else m.map Prod.fst ++ [k] := by
  unfold mapInsert
  by_cases h : (mapLookup m k).isSome
  · rw [if_pos h, if_pos h, List.map_map]
    exact List.map_congr_left (fun a _ => rfl)
  · rw [if_neg h, if_neg h]
    simp

theorem mapInsert_keys_toFinset {α : Type} (m : List (ℕ × α)) (k : ℕ) (v : α) :
    ((mapInsert m k v).map Prod.fst).toFinset = insert k (m.map Prod.fst).toFinset := by
  rw [mapInsert_keys]
  by_cases h : (mapLookup m k).isSome
  · rw [if_pos h]
    have hk : k ∈ m.map Prod.fst := by
      rcases Option.isSome_iff_exists.mp h with ⟨w, hw⟩
      exact mapLookup_mem_keys hw
    rw [Finset.insert_eq_self.mpr (List.mem_toFinset.mpr hk)]
  · rw [if_neg h, List.toFinset_append]
    have : ([k] : List ℕ).toFinset = {k} := rfl
    rw [this, Finset.insert_eq, Finset.union_comm]

theorem mapInsert_keys_nodup {α : Type} (m : List (ℕ × α)) (k : ℕ) (v : α)
    (h : (m.map Prod.fst).Nodup) : ((mapInsert m k v).map Prod.fst).Nodup := by
  rw [mapInsert_keys]
  by_cases hs : (mapLookup m k).isSome
  · rw [if_pos hs]
    exact h
  · rw [if_neg hs]
    exact nodup_append_singleton h (fun hk => by rw [mapLookup_isSome_of_mem hk] at hs; exact hs rfl)

theorem constructNode?_isSome (memory : MemoryGraph) (node : OrderedNode) :
    (constructNode? memory node).isSome = nodeMaterializes memory node := by
  rcases node with ⟨nid, ntype, norder, nconf⟩
  cases ntype with
  | FragmentNode =>
    cases h : mapLookup memory.fragments nid <;>
      simp [constructNode?, nodeMaterializes, h]
  | ConflictNode => rfl
  | GapFillNode => rfl
  | DecisionNode => rfl
  | ActionNode => rfl

theorem constructFold_keys (memory : MemoryGraph) (plen : ℕ) :
    ∀ (pruned : List OrderedNode) (acc : List (ℕ × EEGNode) × List ℕ),
    ((pruned.foldl (constructStep memory plen) acc).1.map Prod.fst).toFinset =
      (acc.1.map Prod.fst).toFinset ∪
      ((pruned.filter (fun n => nodeMaterializes memory n)).map (fun n => n.id)).toFinset := by
  intro pruned
  induction pruned with
  | nil => intro acc; simp
  | cons n rest ih =>
    intro acc
    rw [List.foldl_cons]
    cases h : constructNode? memory n with
    | some e =>
      have hm : nodeMaterializes memory n = true := by
        rw [← constructNode?_isSome, h]
        rfl
      have hstep : constructStep memory plen acc n =
          (mapInsert acc.1 n.id e,
           if n.order = plen - 1 then acc.2 ++ [n.id] else acc.2) := by
        unfold constructStep
        rw [h]
      rw [List.filter_cons_of_pos hm, hstep, ih]
      simp only [List.map_cons, List.toFinset_cons]
      rw [mapInsert_keys_toFinset, Finset.insert_union, Finset.union_insert]
    | none =>
      have hm : nodeMaterializes memory n = false := by
        rw [← constructNode?_isSome, h]
        rfl
      have hstep : constructStep memory plen acc n = acc := by
        unfold constructStep
        rw [h]
      rw [List.filter_cons_of_neg (by simp [hm]), hstep, ih]

theorem constructFold_nodup (memory : MemoryGraph) (plen : ℕ) :
    ∀ (pruned : List OrderedNode) (acc : List (ℕ × EEGNode) × List ℕ),
    (acc.1.map Prod.fst).Nodup →
    ((pruned.foldl (constructStep memory plen) acc).1.map Prod.fst).Nodup := by
  intro pruned
  induction pruned with
  | nil => intro acc h; exact h
  | cons n rest ih =>
    intro acc h
    rw [List.foldl_cons]
    apply ih
    unfold constructStep
    cases hc : constructNode? memory n with
    | some e => exact mapInsert_keys_nodup _ _ _ h
    | none => exact h

theorem construct_eeg_nodes_count (pruned : List OrderedNode) (context : ContextVector)
    (memory : MemoryGraph) (now : ℚ) (fresh : ℕ) (hne : pruned ≠ []) :
    (construct_eeg pruned context memory now fresh).nodes.length =
      ((pruned.filter (fun n => nodeMaterializes memory n)).map
        (fun n => n.id)).toFinset.card := by
  cases pruned with
  | nil => exact absurd rfl hne
  | cons first rest =>
    have hkeys := constructFold_keys memory (first :: rest).length (first :: rest) ([], [])
    have hnodup := constructFold_nodup memory (first :: rest).length (first :: rest) ([], [])
      (by simp)
    show ((first :: rest).foldl (constructStep memory (first :: rest).length)
      ([], [])).1.length = _
    calc ((first :: rest).foldl (constructStep memory (first :: rest).length)
          ([], [])).1.length
        = (((first :: rest).foldl (constructStep memory (first :: rest).length)
            ([], [])).1.map Prod.fst).length := (List.length_map _ _).symm
      _ = (((first :: rest).foldl (constructStep memory (first :: rest).length)
            ([], [])).1.map Prod.fst).toFinset.card :=
          (List.toFinset_card_of_nodup hnodup).symm
      _ = _ := by rw [hkeys]; simp

theorem construct_eeg_nodes_ne_nil (pruned : List OrderedNode) (context : ContextVector)
    (memory : MemoryGraph) (now : ℚ) (fresh : ℕ) (hne : pruned ≠ [])
    (hmat : ∀ n ∈ pruned, nodeMaterializes memory n = true) :
    (construct_eeg pruned context memory now fresh).nodes ≠ [] := by
  intro hnil
  have hcount := construct_eeg_nodes_count pruned context memory now fresh hne
  rw [List.filter_eq_self.mpr hmat, hnil] at hcount
  simp only [List.length_nil] at hcount
  cases pruned with
  | nil => exact hne rfl
  | cons a l =>
    have hpos : 0 < (((a :: l).map (fun n => n.id)).toFinset).card :=
      Finset.card_pos.mpr ⟨a.id, by simp⟩
    omega

theorem fillFold_mat (memory : MemoryGraph) :
    ∀ (resolved : List ℕ) (acc : List OrderedNode),
    (∀ n ∈ acc, nodeMaterializes memory n = true) →
    ∀ n ∈ resolved.foldl (fillStep memory) acc, nodeMaterializes memory n = true := by
  intro resolved
  induction resolved with
  | nil => intro acc h; exact h
  | cons r rest ih =>
    intro acc h
    rw [List.foldl_cons]
    apply ih
    intro n hn
    unfold fillStep at hn
    cases hr : mapLookup memory.fragments r with
    | some fragment =>
      rw [hr] at hn
      rcases List.mem_append.mp hn with hn | hn
      · exact h n hn
      · rw [List.mem_singleton] at hn
        subst hn
        show (mapLookup memory.fragments r).isSome = true
        rw [hr]
        rfl
    | none =>
      rw [hr] at hn
      exact h n hn

theorem fill_gaps_fst (resolved : List ℕ) (memory : MemoryGraph)
    (context : ContextVector) (fresh : ℕ) :
    (fill_gaps resolved memory context fresh).1 =
      if (resolved.foldl (fillStep memory) []).length < 3 then
        resolved.foldl (fillStep memory) [] ++
          [⟨fresh, NodeType.GapFillNode, (resolved.foldl (fillStep memory) []).length, 0.5⟩]
      else resolved.foldl (fillStep memory) [] := by
  simp only [fill_gaps]
  by_cases h : (resolved.foldl (fillStep memory) []).length < 3
  · rw [if_pos h, if_pos h]
  · rw [if_neg h, if_neg h]

theorem fill_gaps_mat (resolved : List ℕ) (memory : MemoryGraph)
    (context : ContextVector) (fresh : ℕ) :
    ∀ n ∈ (fill_gaps resolved memory context fresh).1,
      nodeMaterializes memory n = true := by
  intro n hn
  rw [fill_gaps_fst] at hn
  split at hn
  · rcases List.mem_append.mp hn with hn | hn
    · exact fillFold_mat memory resolved [] (by simp) n hn
    · rw [List.mem_singleton] at hn
      subst hn
      rfl
  · exact fillFold_mat memory resolved [] (by simp) n hn

theorem fill_gaps_ne_nil (resolved : List ℕ) (memory : MemoryGraph)
    (context : ContextVector) (fresh : ℕ) :
    (fill_gaps resolved memory context fresh).1 ≠ [] := by
  rw [fill_gaps_fst]
  split
  · simp
  · next h =>
    intro hc
    rw [hc] at h
    simp at h

theorem order_fragments_mat (l : List OrderedNode) (memory : MemoryGraph)
    (h : ∀ n ∈ l, nodeMaterializes memory n = true) :
    ∀ n ∈ order_fragments l memory, nodeMaterializes memory n = true := by
  intro n hn
  simp only [order_fragments, List.mem_map] at hn
  obtain ⟨p, hp, rfl⟩ := hn
  have hmem : p.2 ∈ l.mergeSort (fun a b =>
      decide ((mapLookup memory.fragments b.id).elim b.confidence (fun f => f.confidence) ≤
        (mapLookup memory.fragments a.id).elim a.confidence (fun f => f.confidence))) := by
    rw [← List.enum_map_snd (l.mergeSort _)]
    exact List.mem_map_of_mem _ hp
  exact h p.2 ((List.mergeSort_perm l _).mem_iff.mp hmem)

theorem order_fragments_length (l : List OrderedNode) (memory : MemoryGraph) :
    (order_fragments l memory).length = l.length := by
  simp only [order_fragments, List.length_map, List.enum_length]
  exact (List.mergeSort_perm l _).length_eq

theorem nodeMaterializes_decision (memory : MemoryGraph) (n : OrderedNode)
    (h : n.node_type = NodeType.DecisionNode) :
    nodeMaterializes memory n = true := by
  rcases n with ⟨i, t, o, c⟩
  have ht : t = NodeType.DecisionNode := h
  subst ht
  rfl

theorem branchStep_mem (memory : MemoryGraph) (acc : List OrderedNode × ℕ)
    (x m : OrderedNode) (hm : m ∈ (branchStep memory acc x).1) :
    m ∈ acc.1 ∨ m = x ∨ m.node_type = NodeType.DecisionNode := by
  simp only [branchStep] at hm
  repeat' split at hm
  all_goals simp only [List.mem_append, List.mem_singleton] at hm
  all_goals (first
    | (rcases hm with (hm | hm) | hm
       · exact Or.inl hm
       · exact Or.inr (Or.inl hm)
       · right
         right
         rw [hm])
    | (rcases hm with hm | hm
       · exact Or.inl hm
       · exact Or.inr (Or.inl hm)))

theorem branchFold_mat (memory : MemoryGraph) :
    ∀ (ordered : List OrderedNode) (acc : List OrderedNode × ℕ),
    (∀ n ∈ ordered, nodeMaterializes memory n = true) →
    (∀ n ∈ acc.1, nodeMaterializes memory n = true) →
    ∀ n ∈ (ordered.foldl (branchStep memory) acc).1, nodeMaterializes memory n = true := by
  intro ordered
  induction ordered with
  | nil => intro acc _ hacc; exact hacc
  | cons x rest ih =>
    intro acc hord hacc
    rw [List.foldl_cons]
    apply ih
    · intro n hn
      exact hord n (List.mem_cons_of_mem _ hn)
    · intro n hn
      rcases branchStep_mem memory acc x n hn with h | h | h
      · exact hacc n h
      · rw [h]
        exact hord x (List.mem_cons_self _ _)
      · exact nodeMaterializes_decision memory n h

theorem add_branching_mat (ordered : List OrderedNode) (memory : MemoryGraph)
    (context : ContextVector) (fresh : ℕ)
    (h : ∀ n ∈ ordered, nodeMaterializes memory n = true) :
    ∀ n ∈ (add_branching ordered memory context fresh).1,
      nodeMaterializes memory n = true :=
  branchFold_mat memory ordered ([], fresh) h (by simp)

theorem branchStep_length (memory : MemoryGraph) (acc : List OrderedNode × ℕ)
    (x : OrderedNode) : acc.1.length + 1 ≤ (branchStep memory acc x).1.length := by
  simp only [branchStep]
  repeat' split
  all_goals simp [List.length_append]

theorem branchFold_length (memory : MemoryGraph) :
    ∀ (ordered : List OrderedNode) (acc : List OrderedNode × ℕ),
    acc.1.length + ordered.length ≤ ((ordered.foldl (branchStep memory) acc).1).length := by
  intro ordered
  induction ordered with
  | nil => intro acc; simp
  | cons x rest ih =>
    intro acc
    rw [List.foldl_cons]
    have h1 := branchStep_length memory acc x
    have h2 := ih (branchStep memory acc x)
    simp only [List.length_cons]
    omega

theorem add_branching_ne_nil (ordered : List OrderedNode) (memory : MemoryGraph)
    (context : ContextVector) (fresh : ℕ) (h : ordered ≠ []) :
    (add_branching ordered memory context fresh).1 ≠ [] := by
  intro hc
  have hlen := branchFold_length memory ordered ([], fresh)
  rw [show (add_branching ordered memory context fresh).1 =
    (ordered.foldl (branchStep memory) ([], fresh)).1 from rfl] at hc
  rw [hc] at hlen
  simp only [List.length_nil] at hlen
  have := List.length_pos.mpr h
  omega

theorem prune_resources_mat (branched : List OrderedNode) (context : ContextVector)
    (memory : MemoryGraph)
    (h : ∀ n ∈ branched, nodeMaterializes memory n = true) :
    ∀ n ∈ prune_resources branched context, nodeMaterializes memory n = true := by
  intro n hn
  simp only [prune_resources] at hn
  exact h n (List.mem_of_mem_filter hn)

theorem fill_gaps_context (resolved : List ℕ) (memory : MemoryGraph)
    (c c' : ContextVector) (fresh : ℕ) :
    fill_gaps resolved memory c fresh = fill_gaps resolved memory c' fresh := rfl

theorem add_branching_context (ordered : List OrderedNode) (memory : MemoryGraph)
    (c c' : ContextVector) (fresh : ℕ) :
    add_branching ordered memory c fresh = add_branching ordered memory c' fresh := rfl

theorem construct_eeg_context (pruned : List OrderedNode) (memory : MemoryGraph)
    (now : ℚ) (fresh : ℕ) (c c' : ContextVector) :
    construct_eeg pruned c memory now fresh = construct_eeg pruned c' memory now fresh := rfl

/-- C7: `compile_thought` is total and never degenerate — for every
context and memory graph it returns an EEG whose node map is non-empty
(modelled as a total function, it cannot return an error). -/
theorem compile_thought_total (E : ExpModel) (now : ℚ) (fresh : ℕ)
    (context : ContextVector) (g : MemoryGraph) :
    (compile_thought E now fresh context g).nodes ≠ [] := by
  simp only [compile_thought, compile_thought_with_modules]
  by_cases hact : (activate_fragments E now g context).1.isEmpty
  · simp [hact, create_empty_eeg]
  · simp only [hact, Bool.false_eq_true, if_false]
    set act := activate_fragments E now g context with hact_def
    set fg := fill_gaps (resolve_conflicts act.1 act.2) act.2 context fresh with hfg
    set ord := order_fragments fg.1 act.2 with hord
    set ab := add_branching ord act.2 context fg.2 with hab
    set pr := prune_resources ab.1 context with hpr_def
    have hmat : ∀ n ∈ pr, nodeMaterializes act.2 n = true := by
      rw [hpr_def]
      apply prune_resources_mat
      rw [hab]
      apply add_branching_mat
      rw [hord]
      apply order_fragments_mat
      rw [hfg]
      apply fill_gaps_mat
    rcases eq_or_ne pr [] with hpr | hpr
    · rw [hpr]
      simp [construct_eeg, create_empty_eeg]
    · exact construct_eeg_nodes_ne_nil pr context act.2 now ab.2 hpr hmat

/-- C2: `compile_thought` is monotonic in `time_pressure` — raising the
time pressure (all other context fields fixed) never increases the node
count of the compiled EEG. -/
theorem compile_thought_time_pressure_mono (E : ExpModel) (now : ℚ) (fresh : ℕ)
    (context : ContextVector) (g : MemoryGraph) (p : ℚ)
    (hp : context.time_pressure ≤ p) :
    (compile_thought E now fresh { context with time_pressure := p } g).nodes.length ≤
      (compile_thought E now fresh context g).nodes.length := by
  simp only [compile_thought, compile_thought_with_modules]
  rw [activate_fragments_time_pressure]
  by_cases hact : (activate_fragments E now g context).1.isEmpty
  · simp [hact, create_empty_eeg]
  · simp only [hact, Bool.false_eq_true, if_false]
    rw [fill_gaps_context _ _ { context with time_pressure := p } context,
      add_branching_context _ _ { context with time_pressure := p } context,
      construct_eeg_context _ _ _ _ { context with time_pressure := p } context]
    set act := activate_fragments E now g context with hact_def
    set fg := fill_gaps (resolve_conflicts act.1 act.2) act.2 context fresh with hfg
    set ord := order_fragments fg.1 act.2 with hord
    set ab := add_branching ord act.2 context fg.2 with hab
    have hmatB : ∀ n ∈ ab.1, nodeMaterializes act.2 n = true := by
      rw [hab]
      apply add_branching_mat
      rw [hord]
      apply order_fragments_mat
      rw [hfg]
      apply fill_gaps_mat
    have hsub : List.Sublist (prune_resources ab.1 { context with time_pressure := p })
        (prune_resources ab.1 context) := by
      simp only [prune_resources]
      apply List.monotone_filter_right
      intro a ha
      rw [decide_eq_true_eq] at ha ⊢
      have ha' : context.confidence_threshold + p * 0.2 ≤ a.confidence := ha
      nlinarith
    have hmat2 : ∀ n ∈ prune_resources ab.1 { context with time_pressure := p },
        nodeMaterializes act.2 n = true := by
      intro n hn
      simp only [prune_resources] at hn
      exact hmatB n (List.mem_of_mem_filter hn)
    have hmat1 : ∀ n ∈ prune_resources ab.1 context, nodeMaterializes act.2 n = true :=
      prune_resources_mat ab.1 context act.2 hmatB
    rcases eq_or_ne (prune_resources ab.1 { context with time_pressure := p }) []
      with h2 | h2
    · rw [h2]
      rcases eq_or_ne (prune_resources ab.1 context) [] with h1 | h1
      · rw [h1]
      · have hne := construct_eeg_nodes_ne_nil (prune_resources ab.1 context) context
          act.2 now ab.2 h1 hmat1
        have hlen := List.length_pos.mpr hne
        have hempty : (construct_eeg [] context act.2 now ab.2).nodes.length = 1 := by
          simp [construct_eeg, create_empty_eeg]
        omega
    · have h1 : prune_resources ab.1 context ≠ [] := by
        intro hc
        rw [hc] at hsub
        exact h2 (List.sublist_nil.mp hsub)
      rw [construct_eeg_nodes_count _ _ _ _ _ h2,
        construct_eeg_nodes_count _ _ _ _ _ h1]
      apply Finset.card_le_card
      intro x hx
      rw [List.mem_toFinset] at hx ⊢
      exact (((hsub.filter _).map (fun n => n.id)).subset) hx

/-- Concrete instantiation of C7 at the sample graph and a plain context. -/
theorem compile_thought_total_witness :
    (compile_thought ratExp 0 1
      ⟨⟨r"goal", GoalType.Debug, [], 1⟩, ⟨[], [], [], []⟩, ⟨0, 0, 0, 0, 0⟩,
        ⟨[], [], []⟩, [], 0, ⟨r"dom", none, []⟩, 0.5, 10⟩ sampleGraph).nodes ≠ [] :=
  compile_thought_total ratExp 0 1 _ sampleGraph

/-- Concrete instantiation of C2: raising time pressure from 0 to 1 on a
fixed context and graph does not increase the node count. -/
theorem compile_thought_time_pressure_mono_witness :
    ((⟨⟨r"goal", GoalType.Debug, [], 1⟩, ⟨[], [], [], []⟩, ⟨0, 0, 0, 0, 0⟩,
        ⟨[], [], []⟩, [], 0, ⟨r"dom", none, []⟩, 0.5, 10⟩ : ContextVector).time_pressure ≤ 1) ∧
    (compile_thought ratExp 0 1
      { (⟨⟨r"goal", GoalType.Debug, [], 1⟩, ⟨[], [], [], []⟩, ⟨0, 0, 0, 0, 0⟩,
          ⟨[], [], []⟩, [], 0, ⟨r"dom", none, []⟩, 0.5, 10⟩ : ContextVector) with
        time_pressure := 1 } sampleGraph).nodes.length ≤
    (compile_thought ratExp 0 1
      (⟨⟨r"goal", GoalType.Debug, [], 1⟩, ⟨[], [], [], []⟩, ⟨0, 0, 0, 0, 0⟩,
        ⟨[], [], []⟩, [], 0, ⟨r"dom", none, []⟩, 0.5, 10⟩ : ContextVector)
      sampleGraph).nodes.length :=
  ⟨by norm_num,
   compile_thought_time_pressure_mono ratExp 0 1 _ sampleGraph 1 (by norm_num)⟩

/-- Concrete instantiation of the amended C5 at the sample fragment. -/
theorem decay_strict_salience_witness :
    0 < sampleFragment.decay_rate ∧ (0 : ℚ) < 1 ∧
    0 < sampleFragment.salience ∧ 0 < sampleFragment.confidence ∧
    (decayFragment ratExp 1 sampleFragment).salience < sampleFragment.salience :=
  ⟨by norm_num [sampleFragment], by norm_num, by norm_num [sampleFragment],
    by norm_num [sampleFragment],
    (decay_strict_salience ratExp 1 sampleFragment (by norm_num [sampleFragment])
      (by norm_num) (by norm_num [sampleFragment]) (by norm_num [sampleFragment])).1⟩

end CMCA
